import Mathlib

/-!
A shallow embedding of `src/allocator.c` (a 4 KiB user-space memory
allocator with first/next/best/worst-fit over an address-ordered free
list plus a skip-list size index, and an independent buddy arena).

Memory is modelled at header granularity: an association list from
in-arena byte addresses to header records.  An absent entry models
never-written (zero-initialised, via `mmap`) memory, so reads of absent
entries yield the all-zero header.  All C loops are modelled as
fuel-bounded recursions; fuel is only consumed while the loop advances,
so any sufficiently large fuel computes the same result as the C loop.
Sizes and addresses are `Nat` (the arena is 4096 bytes; `size_t`
overflow is out of scope at this scale); the 32-bit xorshift PRNG is
modelled with explicit `% 2^32`.

The main arena occupies addresses `[0, 4096)`, the buddy arena
`[8192, 12288)` (the two `mmap` regions are disjoint; the concrete
bases are a modelling choice that no claim depends on).
-/

namespace Alloc

/-- `HEAP_SIZE` from the source. -/
def HEAP_SIZE : Nat := 4096

/-- `MIN_TAIL` from the source. -/
def MIN_TAIL : Nat := 32

/-- `MAGIC_F` (free-block magic). -/
def MAGIC_F : Nat := 0xFEEDFACE

/-- `MAGIC_A` (allocated-block magic). -/
def MAGIC_A : Nat := 0xDEADBEEF

/-- `SKLVL`: number of skip-list levels. -/
def SKLVL : Nat := 6

/-- `HDRSZ = sizeof(free_blk_t)` on LP64:
8 (sz) + 8 (anext) + 8 (aprev) + 48 (snext[6]) + 4 (lvl) + 4 (magic)
+ 1 (is_free), padded to 8-byte alignment = 88. -/
def HDRSZ : Nat := 88

/-- `BUDHDR = sizeof(bud_t)` on LP64:
8 (sz) + 8 (next) + 8 (prev) + 4 (magic) + 1 (order) + 1 (is_free),
padded to 8-byte alignment = 32. -/
def BUDHDR : Nat := 32

/-- `MAXORD` from the source. -/
def MAXORD : Nat := 13

/-- Base address of the buddy arena in the model (the main arena starts
at address 0; the two mappings are disjoint). -/
def BUD_BASE : Nat := 8192

/-- Fuel bound used for every loop; far larger than any chain that fits
in a 4096-byte arena of 88-byte headers. -/
def FUEL : Nat := 4096

/-- `free_blk_t`: the main-arena block header. -/
structure FreeBlk where
  sz : Nat
  anext : Option Nat
  aprev : Option Nat
  snext : List (Option Nat)
  lvl : Nat
  magic : Nat
  is_free : Bool
deriving Repr, DecidableEq

/-- The all-zero header: what a read of never-written (mmap-zeroed)
memory recovers. -/
def zeroBlk : FreeBlk :=
  { sz := 0, anext := none, aprev := none,
    snext := List.replicate SKLVL none, lvl := 0, magic := 0, is_free := false }

/-- `bud_t`: the buddy-arena block header. -/
structure Bud where
  sz : Nat
  next : Option Nat
  prev : Option Nat
  magic : Nat
  order : Nat
  is_free : Bool
deriving Repr, DecidableEq

/-- The all-zero buddy header. -/
def zeroBud : Bud :=
  { sz := 0, next := none, prev := none, magic := 0, order := 0, is_free := false }

/-- Main-arena memory: association list from addresses to headers. -/
def Mem : Type := List (Nat × FreeBlk)

instance : DecidableEq Mem := by unfold Mem; infer_instance

/-- Buddy-arena memory. -/
def BMem : Type := List (Nat × Bud)

instance : DecidableEq BMem := by unfold BMem; infer_instance

/-- Read the header at address `a` (absent entry = zeroed memory). -/
def getB (m : Mem) (a : Nat) : FreeBlk :=
  match m.find? (fun e => e.1 = a) with
  | some e => e.2
  | none => zeroBlk

/-- Overwrite the header at address `a` (the newest write shadows older
ones; `getB` always reads the newest). -/
def msetB (m : Mem) (a : Nat) (b : FreeBlk) : Mem :=
  (a, b) :: m

/-- Write some fields of the header at `a` (read-modify-write, exactly
like C field assignment on raw memory). -/
def updB (m : Mem) (a : Nat) (f : FreeBlk → FreeBlk) : Mem :=
  msetB m a (f (getB m a))

/-- Read the buddy header at `a`. -/
def getBud (m : BMem) (a : Nat) : Bud :=
  match m.find? (fun e => e.1 = a) with
  | some e => e.2
  | none => zeroBud

/-- Overwrite the buddy header at `a`. -/
def msetBud (m : BMem) (a : Nat) (b : Bud) : BMem :=
  (a, b) :: m

/-- Write some fields of the buddy header at `a`. -/
def updBud (m : BMem) (a : Nat) (f : Bud → Bud) : BMem :=
  msetBud m a (f (getBud m a))

/-- `n->snext[i]`. -/
def snextAt (m : Mem) (a : Nat) (i : Nat) : Option Nat :=
  (getB m a).snext.getD i none

/-- The complete allocator state: every process-global of the source. -/
structure St where
  mem : Mem
  heapInited : Bool
  alist_head : Option Nat
  rover : Option Nat
  sheads : List (Option Nat)
  prng : Nat
  strategy : Nat
  bmem : BMem
  bInited : Bool
  bfl : List (Option Nat)
deriving DecidableEq

/-- The pristine process state (all globals as statically initialised). -/
def st0 : St :=
  { mem := [], heapInited := false, alist_head := none, rover := none,
    sheads := List.replicate SKLVL none, prng := 0x9E3779B9, strategy := 0,
    bmem := [], bInited := false, bfl := List.replicate MAXORD none }

/-- `xr()`: one step of the 32-bit xorshift PRNG (returns the new state;
the source returns the stored state, which is the same value). -/
def xr (x : Nat) : Nat :=
  let x1 := (x ^^^ (x <<< 13)) % 2 ^ 32
  let x2 := x1 ^^^ (x1 >>> 17)
  let x3 := (x2 ^^^ (x2 <<< 5)) % 2 ^ 32
  if x3 = 0 then 0xA5A5A5A5 else x3

/-- The loop of `rand_lvl`: `rem` counts the increments still allowed
(`SKLVL - h`); each test calls `xr` first, exactly as the C `&&` does. -/
def rand_lvl_go (st h : Nat) : Nat → Nat × Nat
  | 0 => (st, h)
  | rem + 1 =>
    let st' := xr st
    if st' % 2 = 1 then rand_lvl_go st' (h + 1) rem else (st', h)

/-- `rand_lvl()`: geometric level in `[1, SKLVL]`, advancing the PRNG. -/
def rand_lvl (st : Nat) : Nat × Nat :=
  rand_lvl_go st 1 (SKLVL - 1)

/-- `cmp_size_addr(p, ·) < 0` against a fixed `(size, address)` key. -/
def cmpLtKey (m : Mem) (a : Nat) (key : Nat × Nat) : Bool :=
  (getB m a).sz < key.1 ∨ ((getB m a).sz = key.1 ∧ a < key.2)

/-- `adjacent(a, b)` from the source. -/
def adjacentB (m : Mem) (a b : Nat) : Bool :=
  a + HDRSZ + (getB m a).sz = b

/-- `alu(n)`: unlink `n` from the address list. -/
def alu (s : St) (n : Nat) : St :=
  let b := getB s.mem n
  let m :=
    match b.aprev with
    | some pa => updB s.mem pa (fun p => { p with anext := b.anext })
    | none => s.mem
  let head := match b.aprev with | some _ => s.alist_head | none => b.anext
  let m :=
    match b.anext with
    | some na => updB m na (fun x => { x with aprev := b.aprev })
    | none => m
  let m := updB m n (fun x => { x with aprev := none, anext := none })
  { s with mem := m, alist_head := head }

/-- `alb(prev, next, n)`: link `n` between `prev` and `next`. -/
def alb (s : St) (prev next : Option Nat) (n : Nat) : St :=
  let m := updB s.mem n (fun x => { x with aprev := prev, anext := next })
  let mh : Mem × Option Nat :=
    match prev with
    | some pa => (updB m pa (fun p => { p with anext := some n }), s.alist_head)
    | none => (m, some n)
  let m :=
    match next with
    | some na => updB mh.1 na (fun x => { x with aprev := some n })
    | none => mh.1
  { s with mem := m, alist_head := mh.2 }

/-- The inner `while (p && cmp_size_addr(p,n) < 0)` scan at level `i`. -/
def scanLtK (m : Mem) (key : Nat × Nat) (i : Nat) :
    Option Nat → Option Nat → Nat → Option Nat
  | cur, _, 0 => cur
  | cur, p, fuel + 1 =>
    match p with
    | none => cur
    | some a =>
      if cmpLtKey m a key then scanLtK m key i (some a) (snextAt m a i) fuel
      else cur

/-- The downward descent of `sidx_insert` / `sidx_remove_exact`:
processes levels `i-1` down to `0`, returning the final `cur` and the
`upd` array (position `j` holds `upd[j]`). -/
def descend (m : Mem) (heads : List (Option Nat)) (key : Nat × Nat) :
    Nat → Option Nat → Option Nat × List (Option Nat)
  | 0, cur => (cur, [])
  | i + 1, cur =>
    let p := match cur with
      | some c => snextAt m c i
      | none => heads.getD i none
    let cur' := scanLtK m key i cur p FUEL
    let r := descend m heads key i cur'
    (r.1, r.2 ++ [cur'])

/-- The splice loop of `sidx_insert` (levels `0 .. L-1`), `cnt` counting
the remaining iterations. -/
def spliceIns (n : Nat) (upd : List (Option Nat)) :
    Mem → List (Option Nat) → Nat → Nat → Mem × List (Option Nat)
  | m, heads, _, 0 => (m, heads)
  | m, heads, i, cnt + 1 =>
    let u := upd.getD i none
    let p := match u with
      | some ua => snextAt m ua i
      | none => heads.getD i none
    let m := updB m n (fun x => { x with snext := x.snext.set i p })
    match u with
    | some ua =>
      spliceIns n upd (updB m ua (fun x => { x with snext := x.snext.set i (some n) }))
        heads (i + 1) cnt
    | none => spliceIns n upd m (heads.set i (some n)) (i + 1) cnt

/-- The `for (i=L; i<SKLVL; i++) n->snext[i] = NULL` loop. -/
def clearHigh (n : Nat) : Mem → Nat → Nat → Mem
  | m, _, 0 => m
  | m, i, cnt + 1 =>
    clearHigh n (updB m n (fun x => { x with snext := x.snext.set i none })) (i + 1) cnt

/-- `sidx_insert(n)`. -/
def sidx_insert (s : St) (n : Nat) : St :=
  let rl := rand_lvl s.prng
  let lv := rl.2
  let m := updB s.mem n (fun x => { x with lvl := lv })
  let key : Nat × Nat := ((getB m n).sz, n)
  let d := descend m s.sheads key SKLVL none
  let mh := spliceIns n d.2 m s.sheads 0 lv
  let m := clearHigh n mh.1 lv (SKLVL - lv)
  { s with mem := m, sheads := mh.2, prng := rl.1 }

/-- The unlink loop of `sidx_remove_exact` (levels `0 .. SKLVL-1`). -/
def spliceRem (n : Nat) (upd : List (Option Nat)) :
    Mem → List (Option Nat) → Nat → Nat → Mem × List (Option Nat)
  | m, heads, _, 0 => (m, heads)
  | m, heads, i, cnt + 1 =>
    let u := upd.getD i none
    let nxt := match u with
      | some ua => snextAt m ua i
      | none => heads.getD i none
    if nxt = some n then
      match u with
      | some ua =>
        spliceRem n upd (updB m ua (fun x => { x with snext := x.snext.set i (snextAt m n i) }))
          heads (i + 1) cnt
      | none => spliceRem n upd m (heads.set i (snextAt m n i)) (i + 1) cnt
    else spliceRem n upd m heads (i + 1) cnt

/-- `sidx_remove_exact(n)`. -/
def sidx_remove_exact (s : St) (n : Nat) : St :=
  let key : Nat × Nat := ((getB s.mem n).sz, n)
  let d := descend s.mem s.sheads key SKLVL none
  let mh := spliceRem n d.2 s.mem s.sheads 0 SKLVL
  { s with mem := mh.1, sheads := mh.2 }

/-- The inner `while (p && p->sz < need)` scan of `sidx_ge`. -/
def scanLtSz (m : Mem) (need : Nat) (i : Nat) :
    Option Nat → Option Nat → Nat → Option Nat
  | cur, _, 0 => cur
  | cur, p, fuel + 1 =>
    match p with
    | none => cur
    | some a =>
      if (getB m a).sz < need then scanLtSz m need i (some a) (snextAt m a i) fuel
      else cur

/-- The level descent of `sidx_ge`. -/
def geDescend (m : Mem) (heads : List (Option Nat)) (need : Nat) :
    Nat → Option Nat → Option Nat
  | 0, cur => cur
  | i + 1, cur =>
    let p := match cur with
      | some c => snextAt m c i
      | none => heads.getD i none
    geDescend m heads need i (scanLtSz m need i cur p FUEL)

/-- `sidx_ge(need)`: first size-index node with `sz ≥ need`. -/
def sidx_ge (s : St) (need : Nat) : Option Nat :=
  match geDescend s.mem s.sheads need SKLVL none with
  | some c => snextAt s.mem c 0
  | none => s.sheads.getD 0 none

/-- The inner `while (p)` scan of `sidx_max`. -/
def scanEnd (m : Mem) (i : Nat) : Option Nat → Option Nat → Nat → Option Nat
  | cur, _, 0 => cur
  | cur, p, fuel + 1 =>
    match p with
    | none => cur
    | some a => scanEnd m i (some a) (snextAt m a i) fuel

/-- The level descent of `sidx_max`. -/
def maxDescend (m : Mem) (heads : List (Option Nat)) :
    Nat → Option Nat → Option Nat
  | 0, cur => cur
  | i + 1, cur =>
    let p := match cur with
      | some c => snextAt m c i
      | none => heads.getD i none
    maxDescend m heads i (scanEnd m i cur p FUEL)

/-- `sidx_max()`: the largest size-index node. -/
def sidx_max (s : St) : Option Nat :=
  maxDescend s.mem s.sheads SKLVL none

/-- `heap_bootstrap()`. -/
def heap_bootstrap (s : St) : St :=
  if s.heapInited then s
  else
    let b : FreeBlk :=
      { sz := HEAP_SIZE - HDRSZ, anext := none, aprev := none,
        snext := List.replicate SKLVL none, lvl := 1, magic := MAGIC_F, is_free := true }
    let s := { s with mem := msetB s.mem 0 b,
                      sheads := List.replicate SKLVL none,
                      alist_head := some 0 }
    let s := sidx_insert s 0
    { s with rover := some 0, prng := 0x9E3779B9, heapInited := true }

/-- `smt(blk, need)`: the split routine; returns the new state and the
remainder's address when a remainder is carved. -/
def smt (s : St) (blk need : Nat) : St × Option Nat :=
  let total := HDRSZ + (getB s.mem blk).sz
  let needed := HDRSZ + need
  if needed + HDRSZ + MIN_TAIL ≤ total then
    let remA := blk + needed
    let rem : FreeBlk :=
      { sz := total - needed - HDRSZ, anext := none, aprev := none,
        snext := List.replicate SKLVL none, lvl := 1, magic := MAGIC_F, is_free := true }
    let m := msetB s.mem remA rem
    let m := updB m blk (fun b => { b with sz := need })
    ({ s with mem := m }, some remA)
  else (s, none)

/-- `if (cond) sidx_remove_exact(node)` for an optional node, as used
three times at the top of `cola`. -/
def remIf (t : St) (o : Option Nat) (c : Bool) : St :=
  match o, c with
  | some a, true => sidx_remove_exact t a
  | _, _ => t

/-- The `if (merge_prev)` block of `cola`: splice `b` out after `p`,
grow `p`, retarget the rover.  Returns the effective block. -/
def colaPrev (s : St) (b : Nat) (p? : Option Nat) (mp : Bool) : St × Nat :=
  match p?, mp with
  | some pa, true =>
    let bn := (getB s.mem b).anext
    let m := updB s.mem pa (fun x => { x with anext := bn })
    let m := match bn with
      | some na => updB m na (fun x => { x with aprev := some pa })
      | none => m
    let m := updB m pa (fun x => { x with sz := x.sz + HDRSZ + (getB m b).sz })
    let rv := if s.rover = some b ∨ s.rover = some pa then some pa else s.rover
    ({ s with mem := m, rover := rv }, pa)
  | _, _ => (s, b)

/-- The `if (merge_next)` block of `cola`: splice the right neighbour
out after the effective block `b1` and grow `b1`. -/
def colaNext (s : St) (b1 : Nat) (n? : Option Nat) (mn : Bool) : St :=
  match n?, mn with
  | some na, true =>
    let nn := (getB s.mem na).anext
    let m := updB s.mem b1 (fun x => { x with anext := nn })
    let m := match nn with
      | some x => updB m x (fun y => { y with aprev := some b1 })
      | none => m
    let m := updB m b1 (fun x => { x with sz := x.sz + HDRSZ + (getB m na).sz })
    let rv := if s.rover = some na ∨ s.rover = some b1 then some b1 else s.rover
    { s with mem := m, rover := rv }
  | _, _ => s

/-- `cola(b)`: coalesce with address neighbours; returns the surviving
block's address. -/
def cola (s : St) (b : Nat) : St × Nat :=
  let p? := (getB s.mem b).aprev
  let n? := (getB s.mem b).anext
  let mp := match p? with | some pa => adjacentB s.mem pa b | none => false
  let mn := match n? with | some na => adjacentB s.mem b na | none => false
  let sb : St × Nat :=
    if mp || mn then
      let s := remIf s p? mp
      let s := sidx_remove_exact s b
      let s := remIf s n? mn
      let sb1 := colaPrev s b p? mp
      let s := colaNext sb1.1 sb1.2 n? mn
      (sidx_insert s sb1.2, sb1.2)
    else (s, b)
  let s := sb.1
  let s := if s.alist_head = none then { s with rover := none } else s
  (s, sb.2)

/-- The shared allocation body of the four main strategies: capture the
neighbours, unlink from both structures, split, relink a remainder.
Returns the state, the remainder (if any) and the captured successor. -/
def allocCore (s : St) (cur size : Nat) : St × Option Nat × Option Nat :=
  let prev := (getB s.mem cur).aprev
  let next := (getB s.mem cur).anext
  let s := alu s cur
  let s := sidx_remove_exact s cur
  let sr := smt s cur size
  let s := match sr.2 with
    | some rem => sidx_insert (alb sr.1 prev next rem) rem
    | none => sr.1
  (s, sr.2, next)

/-- Stamp the outgoing header (`is_free = 0; magic = MAGIC_A`). -/
def stampA (s : St) (cur : Nat) : St :=
  { s with mem := updB s.mem cur (fun x => { x with is_free := false, magic := MAGIC_A }) }

/-- The scan loop of `malloc_first_fit`. -/
def ffLoop (s : St) (size : Nat) : Option Nat → Nat → St × Option Nat
  | none, _ => (s, none)
  | some _, 0 => (s, none)
  | some cur, fuel + 1 =>
    if size ≤ (getB s.mem cur).sz then
      let r := allocCore s cur size
      let s := r.1
      let s :=
        match r.2.1 with
        | some rem => { s with rover := some rem }
        | none =>
          { s with rover := match r.2.2 with
                            | some nx => some nx
                            | none => s.alist_head }
      (stampA s cur, some (cur + HDRSZ))
    else ffLoop s size (getB s.mem cur).anext fuel

/-- `malloc_first_fit(size)`. -/
def malloc_first_fit (s : St) (size : Nat) : St × Option Nat :=
  if size = 0 then (s, none)
  else
    let s := heap_bootstrap s
    let s := { s with strategy := 1 }
    ffLoop s size s.alist_head FUEL

/-- The body of the next-fit hit branch, applied to the result triple of
`allocCore`: update the rover (remainder if split, else successor with
wrap to head, null if the list emptied) and stamp the block. -/
def nfHit (r : St × Option Nat × Option Nat) (cur : Nat) : St × Option Nat :=
  let s := r.1
  let s :=
    match r.2.1 with
    | some rem => { s with rover := some rem }
    | none =>
      { s with rover :=
          match s.alist_head with
          | none => none
          | some h =>
            match r.2.2 with
            | some nx => some nx
            | none => some h }
  let s := if s.alist_head = none then { s with rover := none } else s
  (stampA s cur, some (cur + HDRSZ))

/-- The circular scan loop of `malloc_next_fit`. -/
def nfLoop (s : St) (size start : Nat) : Nat → Nat → St × Option Nat
  | _, 0 => (s, none)
  | cur, fuel + 1 =>
    if size ≤ (getB s.mem cur).sz then
      nfHit (allocCore s cur size) cur
    else
      match (getB s.mem cur).anext with
      | some nx => if nx = start then (s, none) else nfLoop s size start nx fuel
      | none =>
        match s.alist_head with
        | some h => if h = start then (s, none) else nfLoop s size start h fuel
        | none => (s, none)

/-- `malloc_next_fit(size)`. -/
def malloc_next_fit (s : St) (size : Nat) : St × Option Nat :=
  if size = 0 then (s, none)
  else
    let s := heap_bootstrap s
    let s := { s with strategy := 2 }
    match s.alist_head with
    | none => ({ s with rover := none }, none)
    | some h =>
      let start := match s.rover with | some r => r | none => h
      let s := { s with rover := some start }
      nfLoop s size start start FUEL

/-- `malloc_best_fit(size)`. -/
def malloc_best_fit (s : St) (size : Nat) : St × Option Nat :=
  if size = 0 then (s, none)
  else
    let s := heap_bootstrap s
    let s := { s with strategy := 3 }
    match sidx_ge s size with
    | none => (s, none)
    | some best =>
      let r := allocCore s best size
      (stampA r.1 best, some (best + HDRSZ))

/-- `malloc_worst_fit(size)`. -/
def malloc_worst_fit (s : St) (size : Nat) : St × Option Nat :=
  if size = 0 then (s, none)
  else
    let s := heap_bootstrap s
    let s := { s with strategy := 4 }
    match sidx_max s with
    | none => (s, none)
    | some w =>
      if (getB s.mem w).sz < size then (s, none)
      else
        let r := allocCore s w size
        (stampA r.1 w, some (w + HDRSZ))

/-- `b_init()`. -/
def b_init (s : St) : St :=
  if s.bInited then s
  else
    let b : Bud :=
      { sz := 2 ^ (MAXORD - 1), next := none, prev := none,
        magic := MAGIC_F, order := MAXORD - 1, is_free := true }
    { s with bmem := msetBud [] BUD_BASE b,
             bfl := (List.replicate MAXORD none).set (MAXORD - 1) (some BUD_BASE),
             bInited := true }

/-- The `while (k < MAXORD && !bfl[k]) k++` scan of `bgb`. -/
def bgbFind (bfl : List (Option Nat)) : Nat → Nat → Nat
  | k, 0 => k
  | k, f + 1 => if (bfl.getD k none).isNone then bgbFind bfl (k + 1) f else k

/-- The halving loop of `bgb` (`while (k > order)`). -/
def halveLoop (b : Nat) : St → Nat → Nat → St
  | s, _, 0 => s
  | s, k, f + 1 =>
    let k' := k - 1
    let half := 2 ^ k'
    let R := b + half
    let bm := updBud s.bmem b
      (fun x => { x with sz := half, order := k', magic := MAGIC_F, is_free := true })
    let hd := s.bfl.getD k' none
    let bm := msetBud bm R
      { sz := half, next := hd, prev := none, magic := MAGIC_F, order := k', is_free := true }
    let bm := match hd with
      | some h => updBud bm h (fun x => { x with prev := some R })
      | none => bm
    halveLoop b { s with bmem := bm, bfl := s.bfl.set k' (some R) } k' f

/-- `bgb(order)`: get a block of exactly `order`, splitting larger ones. -/
def bgb (s : St) (order : Nat) : St × Option Nat :=
  let k := bgbFind s.bfl order (MAXORD - order)
  if MAXORD ≤ k then (s, none)
  else
    match s.bfl.getD k none with
    | none => (s, none)
    | some b0 =>
      let bNext := (getBud s.bmem b0).next
      let bm := match bNext with
        | some nb => updBud s.bmem nb (fun x => { x with prev := none })
        | none => s.bmem
      let bm := updBud bm b0 (fun x => { x with next := none, prev := none })
      let s := halveLoop b0 { s with bmem := bm, bfl := s.bfl.set k bNext } k (k - order)
      ({ s with bmem := updBud s.bmem b0 (fun x => { x with is_free := false, magic := MAGIC_A }) },
       some b0)

/-- `b_buddy(b)`. -/
def b_buddy (bm : BMem) (b : Nat) : Option Nat :=
  let sz := 2 ^ (getBud bm b).order
  let off := b - BUD_BASE
  let boff := off ^^^ sz
  if boff < HEAP_SIZE then some (BUD_BASE + boff) else none

/-- Unlink block `a` from its order's buddy free list (the source's
four-line unlink, reading `a`'s links and order from `bm`). -/
def bUnlink (bm : BMem) (bfl : List (Option Nat)) (a : Nat) : BMem × List (Option Nat) :=
  let aprev := (getBud bm a).prev
  let anext := (getBud bm a).next
  let aord := (getBud bm a).order
  let bm2 := match aprev with
    | some x => updBud bm x (fun y => { y with next := anext })
    | none => bm
  let bfl2 := match aprev with
    | some _ => bfl
    | none => bfl.set aord anext
  let bm2 := match anext with
    | some x => updBud bm2 x (fun y => { y with prev := aprev })
    | none => bm2
  (bm2, bfl2)

/-- Push block `a` on the front of its order's buddy free list. -/
def bPush (bm : BMem) (bfl : List (Option Nat)) (a : Nat) : BMem × List (Option Nat) :=
  let ord := (getBud bm a).order
  let hd := bfl.getD ord none
  let bm2 := updBud bm a (fun x => { x with next := hd, prev := none })
  let bm2 := match hd with
    | some h => updBud bm2 h (fun x => { x with prev := some a })
    | none => bm2
  (bm2, bfl.set ord (some a))

/-- One iteration of the merge loop of `bfm`: `none` when the loop
stops (order cap reached, no buddy, or buddy not a free same-order
block), otherwise the state after merging plus the merged block. -/
def bfmTry (s : St) (b : Nat) : Option (St × Nat) :=
  if (getBud s.bmem b).order < MAXORD - 1 then
    match b_buddy s.bmem b with
    | none => none
    | some m =>
      if (getBud s.bmem m).is_free = true ∧
         (getBud s.bmem m).order = (getBud s.bmem b).order then
        let u1 := bUnlink s.bmem s.bfl m
        let u2 := bUnlink u1.1 u1.2 b
        let b2 := if m < b then m else b
        let bm2 := updBud u2.1 b2
          (fun x => { x with order := x.order + 1, sz := x.sz * 2, prev := none, next := none })
        let pu := bPush bm2 u2.2 b2
        some ({ s with bmem := pu.1, bfl := pu.2 }, b2)
      else none
  else none

/-- The merge loop of `bfm` (`while (b->order < MAXORD-1)`). -/
def bfmLoop : St → Nat → Nat → St
  | s, _, 0 => s
  | s, b, fuel + 1 =>
    match bfmTry s b with
    | some r => bfmLoop r.1 r.2 fuel
    | none => s

/-- `bfm(b)`: stamp free, push on its order's list, then merge upward. -/
def bfm (s : St) (b : Nat) : St :=
  let bm := updBud s.bmem b (fun x => { x with is_free := true, magic := MAGIC_F })
  let pu := bPush bm s.bfl b
  bfmLoop { s with bmem := pu.1, bfl := pu.2 } b FUEL

/-- The `while (blk < need && order < MAXORD)` sizing loop of
`malloc_buddy_alloc`; fuel `MAXORD - order` encodes the order bound. -/
def ordLoop (need : Nat) : Nat → Nat → Nat → Nat
  | order, _, 0 => order
  | order, blk, f + 1 => if blk < need then ordLoop need (order + 1) (blk * 2) f else order

/-- `malloc_buddy_alloc(size)`. -/
def malloc_buddy_alloc (s : St) (size : Nat) : St × Option Nat :=
  if size = 0 then (s, none)
  else
    let s := b_init s
    let s := { s with strategy := 5 }
    let need := size + BUDHDR
    let order := ordLoop need 0 1 MAXORD
    if MAXORD ≤ order then (s, none)
    else
      let r := bgb s order
      match r.2 with
      | none => (r.1, none)
      | some b => (r.1, some (b + BUDHDR))

/-- The `while (cur && cur < blk)` address scan of `my_free`. -/
def scanAddr (m : Mem) (blk : Nat) :
    Option Nat → Option Nat → Nat → Option Nat × Option Nat
  | prv, cur, 0 => (prv, cur)
  | prv, cur, fuel + 1 =>
    match cur with
    | none => (prv, cur)
    | some c =>
      if c < blk then scanAddr m blk (some c) (getB m c).anext fuel
      else (prv, some c)

/-- The address-ordered insertion step of `my_free`. -/
def freeInsert (s : St) (blk : Nat) : St :=
  match s.alist_head with
  | none =>
    { s with alist_head := some blk,
             mem := updB s.mem blk (fun x => { x with aprev := none, anext := none }) }
  | some h =>
    let pc := scanAddr s.mem blk none (some h) FUEL
    alb s pc.1 pc.2 blk

/-- The header re-stamping step of `my_free` (`magic = M_free`,
`is_free = 1`, skip pointers cleared, level reset). -/
def freeStamp (s : St) (blk : Nat) : St :=
  let f := fun (x : FreeBlk) =>
    { x with is_free := true, magic := MAGIC_F,
             snext := List.replicate SKLVL none, lvl := 1 }
  { s with mem := updB s.mem blk f }

/-- `my_free(ptr)` (`none` models the null pointer). -/
def my_free (s : St) (ptr : Option Nat) : St :=
  match ptr with
  | none => s
  | some p =>
    if s.bInited = true ∧ BUD_BASE ≤ p ∧ p < BUD_BASE + HEAP_SIZE then
      let ba := p - BUDHDR
      if (getBud s.bmem ba).magic = MAGIC_A then bfm s ba else s
    else if s.heapInited = false then s
    else
      let blk := p - HDRSZ
      if (getB s.mem blk).magic = MAGIC_A then
        (cola (sidx_insert (freeStamp (freeInsert s blk) blk) blk) blk).1
      else s

/-- `allocator_current_strategy()`. -/
def allocator_current_strategy (s : St) : Nat :=
  if 1 ≤ s.strategy ∧ s.strategy ≤ 5 then s.strategy else 1

/-- Extract the address list by following `anext` from the head
(`none` result = fuel exhausted, i.e. a cycle). -/
def chainA (m : Mem) : Option Nat → Nat → Option (List Nat)
  | none, _ => some []
  | some _, 0 => none
  | some a, fuel + 1 =>
    match chainA m (getB m a).anext fuel with
    | some l => some (a :: l)
    | none => none

/-- Extract a size-index level-`i` chain by following `snext[i]`. -/
def chainS (m : Mem) (i : Nat) : Option Nat → Nat → Option (List Nat)
  | none, _ => some []
  | some _, 0 => none
  | some a, fuel + 1 =>
    match chainS m i (snextAt m a i) fuel with
    | some l => some (a :: l)
    | none => none

/-- The magic tag stored at address `a` of the main arena. -/
def magicAt (m : Mem) (a : Nat) : Nat := (getB m a).magic

/-- The magic tag stored at address `a` of the buddy arena. -/
def bmagicAt (m : BMem) (a : Nat) : Nat := (getBud m a).magic

/-- The payload size stored at address `a`. -/
def szAt (m : Mem) (a : Nat) : Nat := (getB m a).sz

/-- The skip-list level stored at address `a`. -/
def lvlAt (m : Mem) (a : Nat) : Nat := (getB m a).lvl

/-- The magic value `my_free(p)` examines after its arena dispatch:
the buddy header's when the buddy arena is live and `p` falls in its
range, the main header's when the main arena is live, and nothing when
the call returns before recovering any header. -/
def recoveredMagic (s : St) (p : Nat) : Option Nat :=
  if s.bInited = true ∧ BUD_BASE ≤ p ∧ p < BUD_BASE + HEAP_SIZE then
    some (bmagicAt s.bmem (p - BUDHDR))
  else if s.heapInited = true then some (magicAt s.mem (p - HDRSZ))
  else none

/-- Strict `(size, address)` key order used by the size index. -/
def keyLt (m : Mem) (a b : Nat) : Prop :=
  szAt m a < szAt m b ∨ (szAt m a = szAt m b ∧ a < b)

instance (m : Mem) (a b : Nat) : Decidable (keyLt m a b) :=
  inferInstanceAs (Decidable (szAt m a < szAt m b ∨ (szAt m a = szAt m b ∧ a < b)))

/-- Reflexive `(size, address)` key order. -/
def keyLe (m : Mem) (a b : Nat) : Prop :=
  szAt m a < szAt m b ∨ (szAt m a = szAt m b ∧ a ≤ b)

instance (m : Mem) (a b : Nat) : Decidable (keyLe m a b) :=
  inferInstanceAs (Decidable (szAt m a < szAt m b ∨ (szAt m a = szAt m b ∧ a ≤ b)))

/-- Check that every block's `aprev` back link matches its predecessor
in the address list (`prev` is the predecessor of the first element;
`none` at the head). -/
def aprevOkB (m : Mem) : Option Nat → List Nat → Bool
  | _, [] => true
  | prev, a :: l => ((getB m a).aprev = prev) && aprevOkB m (some a) l

/-- Well-formedness of the main arena's bookkeeping structures:
`L` is the address list (strictly ascending, back links consistent),
`K` the same blocks in strict `(size, address)` order, and every
size-index level chain is exactly the key-ordered nodes whose level
exceeds it.  This is the mutual-consistency invariant of the spec,
phrased over the extracted chains. -/
def MainWF (s : St) (L K : List Nat) : Prop :=
  s.heapInited = true ∧
  chainA s.mem s.alist_head FUEL = some L ∧
  L.Pairwise (fun a b => a < b) ∧
  aprevOkB s.mem none L = true ∧
  K.Perm L ∧
  K.Pairwise (keyLt s.mem) ∧
  (∀ a ∈ K, 1 ≤ lvlAt s.mem a ∧ lvlAt s.mem a ≤ SKLVL) ∧
  (∀ i, i < SKLVL →
    chainS s.mem i (s.sheads.getD i none) FUEL =
      some (K.filter (fun a => decide (i < lvlAt s.mem a))))

/-- The last element of `l`, or `cur` when `l` is empty: the value a
running scan pointer holds after passing over `l`. -/
def lastD : List Nat → Option Nat → Option Nat
  | [], cur => cur
  | a :: l, _ => lastD l (some a)

theorem getB_msetB_self (m : Mem) (a : Nat) (b : FreeBlk) : getB (msetB m a b) a = b := by
  simp [getB, msetB, List.find?_cons]

theorem getB_msetB_ne (m : Mem) (a a' : Nat) (b : FreeBlk) (h : ¬ a' = a) :
    getB (msetB m a b) a' = getB m a' := by
  have : ¬ ((a, b).1 = a') := fun hx => h hx.symm
  simp [getB, msetB, List.find?_cons, this]

theorem getB_updB_self (m : Mem) (a : Nat) (f : FreeBlk → FreeBlk) :
    getB (updB m a f) a = f (getB m a) := by
  simp [updB, getB_msetB_self]

theorem getB_updB_ne (m : Mem) (a a' : Nat) (f : FreeBlk → FreeBlk) (h : ¬ a' = a) :
    getB (updB m a f) a' = getB m a' := by
  simp [updB, getB_msetB_ne m a a' _ h]

theorem getBud_msetBud_self (m : BMem) (a : Nat) (b : Bud) : getBud (msetBud m a b) a = b := by
  simp [getBud, msetBud, List.find?_cons]

theorem getBud_msetBud_ne (m : BMem) (a a' : Nat) (b : Bud) (h : ¬ a' = a) :
    getBud (msetBud m a b) a' = getBud m a' := by
  have : ¬ ((a, b).1 = a') := fun hx => h hx.symm
  simp [getBud, msetBud, List.find?_cons, this]

theorem getBud_updBud_self (m : BMem) (a : Nat) (f : Bud → Bud) :
    getBud (updBud m a f) a = f (getBud m a) := by
  simp [updBud, getBud_msetBud_self]

theorem getBud_updBud_ne (m : BMem) (a a' : Nat) (f : Bud → Bud) (h : ¬ a' = a) :
    getBud (updBud m a f) a' = getBud m a' := by
  simp [updBud, getBud_msetBud_ne m a a' _ h]

/-- C1: the claim reads "after every public operation ... if the next-fit
rover is non-null it points at a block currently present in the main-arena
address list".  The code violates this: `malloc_best_fit` (and
`malloc_worst_fit`) never update the rover, so after bootstrapping and one
`malloc_best_fit(1)` the rover still points at the now-allocated block at
address 0, while the address list holds only the split remainder at 89.
This theorem evaluates the code at that failing input. -/
theorem C1_rover_dangles_after_best_fit :
    ((malloc_best_fit st0 1).1.rover = some 0 ∧
     chainA (malloc_best_fit st0 1).1.mem (malloc_best_fit st0 1).1.alist_head FUEL =
       some [89] ∧
     magicAt (malloc_best_fit st0 1).1.mem 0 = MAGIC_A ∧
     ¬ (0 ∈ [89])) := by decide

/-- C2: the claim reads "after every public operation ... the set of
blocks in the address list equals the set of blocks in the size index".
The code violates this for the history `best-fit(1); next-fit(1)`: the
first call leaves the rover dangling on the allocated block 0 (see C1),
and the second call starts its circular scan there, re-allocates the
already-allocated block, and its `alu` unlink clobbers the list head —
leaving the address list empty while the size index still holds the
remainder block 89 (both calls return payload 88: a double allocation).
This theorem evaluates the code at that failing history. -/
theorem C2_list_and_index_desync :
    (let r := malloc_next_fit (malloc_best_fit st0 1).1 1
     chainA r.1.mem r.1.alist_head FUEL = some [] ∧
     chainS r.1.mem 0 (r.1.sheads.getD 0 none) FUEL = some [89] ∧
     r.2 = some 88 ∧ (malloc_best_fit st0 1).2 = some 88) := by decide

/-- C3: `smt` splits iff `Hsz + B.size ≥ (Hsz + R) + Hsz + T` (T = 32);
the remainder then sits at `B + (Hsz + R)`, has payload size
`(Hsz + B.size) − (Hsz + R) − Hsz`, is marked free with level 1 and null
skip pointers, and `B.size` shrinks to `R`; otherwise the state (hence
`B.size`) is unchanged and `smt` returns null. -/
theorem C3_split_spec (s : St) (blk need : Nat) :
    (¬ ((HDRSZ + need) + HDRSZ + MIN_TAIL ≤ HDRSZ + szAt s.mem blk) →
       smt s blk need = (s, none)) ∧
    ((HDRSZ + need) + HDRSZ + MIN_TAIL ≤ HDRSZ + szAt s.mem blk →
       (smt s blk need).2 = some (blk + (HDRSZ + need)) ∧
       getB (smt s blk need).1.mem (blk + (HDRSZ + need)) =
         { sz := (HDRSZ + szAt s.mem blk) - (HDRSZ + need) - HDRSZ,
           anext := none, aprev := none, snext := List.replicate SKLVL none,
           lvl := 1, magic := MAGIC_F, is_free := true } ∧
       szAt (smt s blk need).1.mem blk = need) := by
  unfold szAt
  constructor
  · intro h
    simp only [smt]
    rw [if_neg h]
  · intro h
    have hne : ¬ (blk + (HDRSZ + need) = blk) := by
      have : 0 < HDRSZ + need := by unfold HDRSZ; omega
      omega
    simp only [smt]
    rw [if_pos h]
    refine ⟨rfl, ?_, ?_⟩
    · rw [getB_updB_ne _ _ _ _ hne, getB_msetB_self]
    · rw [getB_updB_self]

/-- Witness for C3 at the bootstrap state, block 0, request 128. -/
theorem C3_split_spec_witness :
    (smt (heap_bootstrap st0) 0 128).2 = some (0 + (HDRSZ + 128)) ∧
    getB (smt (heap_bootstrap st0) 0 128).1.mem (0 + (HDRSZ + 128)) =
      { sz := (HDRSZ + szAt (heap_bootstrap st0).mem 0) - (HDRSZ + 128) - HDRSZ,
        anext := none, aprev := none, snext := List.replicate SKLVL none,
        lvl := 1, magic := MAGIC_F, is_free := true } ∧
    szAt (smt (heap_bootstrap st0) 0 128).1.mem 0 = 128 :=
  (C3_split_spec (heap_bootstrap st0) 0 128).2 (by decide)

/-- C9: from a fresh arena, `first-fit(128) → A; first-fit(64) → B;
free(A); free(B)` leaves a single free block of payload `H − Hsz` at
address 0: the address list has length 1 and the level-0 size-index
chain (which contains every indexed node) is that one node. -/
theorem C9_alloc_alloc_free_free_roundtrip :
    (let r1 := malloc_first_fit st0 128
     let r2 := malloc_first_fit r1.1 64
     let s4 := my_free (my_free r2.1 r1.2) r2.2
     r1.2 = some 88 ∧ r2.2 = some 304 ∧
     chainA s4.mem s4.alist_head FUEL = some [0] ∧
     szAt s4.mem 0 = HEAP_SIZE - HDRSZ ∧
     magicAt s4.mem 0 = MAGIC_F ∧
     chainS s4.mem 0 (s4.sheads.getD 0 none) FUEL = some [0]) := by decide

/-- C10: `my_free` of a non-null pointer before the main arena is
bootstrapped, when the buddy arena is not bootstrapped or does not
contain the pointer, returns with the entire allocator state unchanged
(the model consults no header on this path, mirroring the source's
early returns). -/
theorem C10_free_before_bootstrap (s : St) (p : Nat)
    (h1 : s.heapInited = false)
    (h2 : s.bInited = false ∨ p < BUD_BASE ∨ BUD_BASE + HEAP_SIZE ≤ p) :
    my_free s (some p) = s := by
  simp only [my_free]
  have hb : ¬ (s.bInited = true ∧ BUD_BASE ≤ p ∧ p < BUD_BASE + HEAP_SIZE) := by
    rintro ⟨c1, c2, c3⟩
    rcases h2 with h | h | h
    · rw [h] at c1; exact Bool.false_ne_true c1
    · omega
    · omega
  rw [if_neg hb, if_pos h1]

/-- Witness for C10: freeing pointer 1 in the pristine state. -/
theorem C10_free_before_bootstrap_witness : my_free st0 (some 1) = st0 :=
  C10_free_before_bootstrap st0 1 (by decide) (Or.inl (by decide))

/-- C6 counterexample: the claim states the buddy bootstrap block has
"size 2^(Omax−1) = H/2".  In the code `MAXORD = 13` and the bootstrap
block's size is `2^(MAXORD−1) = 4096 = H`, not `H/2 = 2048`. -/
theorem C6_bootstrap_size_cex :
    (getBud (b_init st0).bmem BUD_BASE).sz = 2 ^ (MAXORD - 1) ∧
    ¬ ((getBud (b_init st0).bmem BUD_BASE).sz = HEAP_SIZE / 2) := by decide

theorem ordLoop_saturates (need : Nat) (hneed : 4096 < need) :
    ∀ (f blk order : Nat), 1 ≤ blk → blk * 2 ^ f ≤ 8192 →
      ordLoop need order blk f = order + f := by
  intro f
  induction f with
  | zero => intro blk order _ _; rfl
  | succ f ih =>
    intro blk order h1 h2
    have hp : (2 : Nat) ≤ 2 ^ (f + 1) := by
      calc (2 : Nat) = 2 ^ 1 := by norm_num
      _ ≤ 2 ^ (f + 1) := Nat.pow_le_pow_right (by norm_num) (by omega)
    have hblk2 : blk * 2 ≤ 8192 := by
      calc blk * 2 ≤ blk * 2 ^ (f + 1) := Nat.mul_le_mul_left _ hp
      _ ≤ 8192 := h2
    have hblk : blk < need := by omega
    unfold ordLoop
    rw [if_pos hblk]
    rw [ih (blk * 2) (order + 1) (by omega)
      (by rw [Nat.mul_assoc]; rw [← Nat.pow_succ']; exact h2)]
    omega

/-- C6 amended: after buddy bootstrap the buddy arena holds a single
free block of order `Omax−1` and size `2^(Omax−1) = H` (the full arena,
not `H/2`), and for every state and request `R`, `alloc-buddy(R)`
returns null whenever `R` exceeds `2^(Omax−1) − Bsz`. -/
theorem C6_buddy_bootstrap_and_refusal :
    (getBud (b_init st0).bmem BUD_BASE =
       { sz := 2 ^ (MAXORD - 1), next := none, prev := none,
         magic := MAGIC_F, order := MAXORD - 1, is_free := true } ∧
     (b_init st0).bfl = (List.replicate MAXORD none).set (MAXORD - 1) (some BUD_BASE) ∧
     2 ^ (MAXORD - 1) = HEAP_SIZE) ∧
    (∀ (s : St) (R : Nat), 2 ^ (MAXORD - 1) - BUDHDR < R →
       (malloc_buddy_alloc s R).2 = none) := by
  constructor
  · exact ⟨by decide, by decide, by decide⟩
  · intro s R h
    have hR : 4064 < R := by
      have h1 : (2 : Nat) ^ (MAXORD - 1) - BUDHDR = 4064 := by decide
      omega
    have hz : ¬ (R = 0) := by omega
    unfold malloc_buddy_alloc
    rw [if_neg hz]
    simp only []
    rw [ordLoop_saturates (R + BUDHDR) (by unfold BUDHDR; omega) MAXORD 1 0
      (by norm_num) (by decide)]
    rw [if_pos (by unfold MAXORD; omega)]

/-- Witness for C6 at the pristine state with request 4065. -/
theorem C6_buddy_refusal_witness : (malloc_buddy_alloc st0 4065).2 = none :=
  C6_buddy_bootstrap_and_refusal.2 st0 4065 (by decide)

theorem strategy_alu (s : St) (n : Nat) : (alu s n).strategy = s.strategy := rfl

theorem strategy_alb (s : St) (prev next : Option Nat) (n : Nat) :
    (alb s prev next n).strategy = s.strategy := rfl

theorem strategy_sidx_insert (s : St) (n : Nat) :
    (sidx_insert s n).strategy = s.strategy := rfl

theorem strategy_sidx_remove_exact (s : St) (n : Nat) :
    (sidx_remove_exact s n).strategy = s.strategy := rfl

theorem strategy_smt (s : St) (blk need : Nat) :
    (smt s blk need).1.strategy = s.strategy := by
  simp only [smt]
  split <;> rfl

theorem strategy_heap_bootstrap (s : St) :
    (heap_bootstrap s).strategy = s.strategy := by
  unfold heap_bootstrap
  split <;> rfl

theorem strategy_allocCore (s : St) (cur size : Nat) :
    (allocCore s cur size).1.strategy = s.strategy := by
  unfold allocCore
  simp only []
  cases hsr : (smt (sidx_remove_exact (alu s cur) cur) cur size).2 with
  | none =>
    rw [strategy_smt, strategy_sidx_remove_exact, strategy_alu]
  | some rem =>
    rw [strategy_sidx_insert, strategy_alb, strategy_smt,
      strategy_sidx_remove_exact, strategy_alu]

theorem strategy_stampA (s : St) (cur : Nat) : (stampA s cur).strategy = s.strategy := rfl

theorem strategy_ffLoop (s : St) (size : Nat) :
    ∀ (fuel : Nat) (c : Option Nat), ((ffLoop s size c fuel).1).strategy = s.strategy := by
  intro fuel
  induction fuel with
  | zero => intro c; cases c <;> rfl
  | succ fuel ih =>
    intro c
    cases c with
    | none => rfl
    | some cur =>
      unfold ffLoop
      split
      · rw [strategy_stampA]
        split
        · rw [strategy_allocCore]
        · rw [strategy_allocCore]
      · exact ih _

theorem strategy_nfHit (r : St × Option Nat × Option Nat) (cur : Nat) :
    ((nfHit r cur).1).strategy = r.1.strategy := by
  simp only [nfHit]
  rw [strategy_stampA]
  split <;> split <;> rfl

theorem strategy_nfLoop (s : St) (size start : Nat) :
    ∀ (fuel cur : Nat), ((nfLoop s size start cur fuel).1).strategy = s.strategy := by
  intro fuel
  induction fuel with
  | zero => intro cur; rfl
  | succ fuel ih =>
    intro cur
    unfold nfLoop
    split
    · rw [strategy_nfHit, strategy_allocCore]
    · split
      · split
        · rfl
        · exact ih _
      · split
        · split
          · rfl
          · exact ih _
        · rfl

theorem strategy_halveLoop (b : Nat) :
    ∀ (f : Nat) (s : St) (k : Nat), (halveLoop b s k f).strategy = s.strategy := by
  intro f
  induction f with
  | zero => intro s k; rfl
  | succ f ih => intro s k; unfold halveLoop; rw [ih]

theorem strategy_bgb (s : St) (order : Nat) : ((bgb s order).1).strategy = s.strategy := by
  simp only [bgb]
  split
  · rfl
  · split
    · rfl
    · simp only []
      rw [strategy_halveLoop]

theorem strategy_b_init (s : St) : (b_init s).strategy = s.strategy := by
  unfold b_init
  split <;> rfl

/-- C7 counterexample: the claim states every `alloc-S(n)` "sets the
strategy tag to S at entry, before the zero-size check", including
`n = 0`.  In the code the zero-size check comes first: after
`first-fit(5)` the tag is FIRST (1), and a subsequent `next-fit(0)`
returns null leaving the tag at 1, not NEXT (2). -/
theorem C7_zero_size_skips_tag_cex :
    ((malloc_next_fit (malloc_first_fit st0 5).1 0).1.strategy = 1 ∧
     ¬ ((malloc_next_fit (malloc_first_fit st0 5).1 0).1.strategy = 2)) := by decide

/-- C7 amended: each strategy entry checks for a zero-size request
first and returns null with the whole state (including the tag)
unchanged; for every `n > 0` the tag is set to the strategy's value
before selection, so a call that fails selection still updates it. -/
theorem C7_tag_set_after_zero_check (s : St) (n : Nat) :
    (n = 0 →
       malloc_first_fit s n = (s, none) ∧ malloc_next_fit s n = (s, none) ∧
       malloc_best_fit s n = (s, none) ∧ malloc_worst_fit s n = (s, none) ∧
       malloc_buddy_alloc s n = (s, none)) ∧
    (¬ n = 0 →
       (malloc_first_fit s n).1.strategy = 1 ∧
       (malloc_next_fit s n).1.strategy = 2 ∧
       (malloc_best_fit s n).1.strategy = 3 ∧
       (malloc_worst_fit s n).1.strategy = 4 ∧
       (malloc_buddy_alloc s n).1.strategy = 5) := by
  constructor
  · intro h
    refine ⟨?_, ?_, ?_, ?_, ?_⟩ <;>
      simp only [malloc_first_fit, malloc_next_fit, malloc_best_fit,
        malloc_worst_fit, malloc_buddy_alloc, if_pos h]
  · intro h
    refine ⟨?_, ?_, ?_, ?_, ?_⟩
    · simp only [malloc_first_fit, if_neg h]
      rw [strategy_ffLoop]
    · simp only [malloc_next_fit, if_neg h]
      split
      · rfl
      · rw [strategy_nfLoop]
    · simp only [malloc_best_fit, if_neg h]
      split
      · rfl
      · rw [strategy_stampA, strategy_allocCore]
    · simp only [malloc_worst_fit, if_neg h]
      split
      · rfl
      · split
        · rfl
        · rw [strategy_stampA, strategy_allocCore]
    · simp only [malloc_buddy_alloc, if_neg h]
      split
      · rfl
      · split
        · rw [strategy_bgb]
        · rw [strategy_bgb]

/-- Witness for C7 at the pristine state with request 5. -/
theorem C7_tag_set_after_zero_check_witness :
    (malloc_first_fit st0 5).1.strategy = 1 ∧
    (malloc_next_fit st0 5).1.strategy = 2 ∧
    (malloc_best_fit st0 5).1.strategy = 3 ∧
    (malloc_worst_fit st0 5).1.strategy = 4 ∧
    (malloc_buddy_alloc st0 5).1.strategy = 5 :=
  (C7_tag_set_after_zero_check st0 5).2 (by decide)

theorem magicAt_updB (m : Mem) (a : Nat) (f : FreeBlk → FreeBlk)
    (hf : ∀ b, (f b).magic = b.magic) (x : Nat) :
    magicAt (updB m a f) x = magicAt m x := by
  by_cases hx : x = a
  · subst hx; unfold magicAt; rw [getB_updB_self]; exact hf _
  · unfold magicAt; rw [getB_updB_ne _ _ _ _ hx]

theorem magicAt_alu (s : St) (n x : Nat) : magicAt (alu s n).mem x = magicAt s.mem x := by
  cases hp : (getB s.mem n).aprev <;> cases hq : (getB s.mem n).anext <;>
    simp only [alu, hp, hq] <;>
    simp [magicAt_updB]

theorem magicAt_alb (s : St) (prev next : Option Nat) (n x : Nat) :
    magicAt (alb s prev next n).mem x = magicAt s.mem x := by
  cases prev <;> cases next <;>
    simp only [alb] <;>
    simp [magicAt_updB]

theorem magicAt_spliceIns (n : Nat) (upd : List (Option Nat)) :
    ∀ (cnt : Nat) (m : Mem) (heads : List (Option Nat)) (i x : Nat),
      magicAt (spliceIns n upd m heads i cnt).1 x = magicAt m x := by
  intro cnt
  induction cnt with
  | zero => intro m heads i x; rfl
  | succ cnt ih =>
    intro m heads i x
    unfold spliceIns
    cases upd.getD i none with
    | none =>
      simp only []
      rw [ih]
      simp [magicAt_updB]
    | some ua =>
      simp only []
      rw [ih]
      simp [magicAt_updB]

theorem magicAt_clearHigh (n : Nat) :
    ∀ (cnt : Nat) (m : Mem) (i x : Nat),
      magicAt (clearHigh n m i cnt) x = magicAt m x := by
  intro cnt
  induction cnt with
  | zero => intro m i x; rfl
  | succ cnt ih =>
    intro m i x
    unfold clearHigh
    rw [ih]
    simp [magicAt_updB]

theorem magicAt_sidx_insert (s : St) (n x : Nat) :
    magicAt (sidx_insert s n).mem x = magicAt s.mem x := by
  simp only [sidx_insert]
  rw [magicAt_clearHigh, magicAt_spliceIns]
  simp [magicAt_updB]

theorem magicAt_spliceRem (n : Nat) (upd : List (Option Nat)) :
    ∀ (cnt : Nat) (m : Mem) (heads : List (Option Nat)) (i x : Nat),
      magicAt (spliceRem n upd m heads i cnt).1 x = magicAt m x := by
  intro cnt
  induction cnt with
  | zero => intro m heads i x; rfl
  | succ cnt ih =>
    intro m heads i x
    unfold spliceRem
    cases upd.getD i none with
    | none =>
      simp only []
      split
      · rw [ih]
      · rw [ih]
    | some ua =>
      simp only []
      split
      · rw [ih]
        simp [magicAt_updB]
      · rw [ih]

theorem magicAt_sidx_remove_exact (s : St) (n x : Nat) :
    magicAt (sidx_remove_exact s n).mem x = magicAt s.mem x := by
  simp only [sidx_remove_exact]
  rw [magicAt_spliceRem]

theorem magicAt_remIf (t : St) (o : Option Nat) (c : Bool) (x : Nat) :
    magicAt (remIf t o c).mem x = magicAt t.mem x := by
  cases o <;> cases c <;> simp [remIf, magicAt_sidx_remove_exact]

theorem magicAt_colaPrev (s : St) (b : Nat) (p? : Option Nat) (mp : Bool) (x : Nat) :
    magicAt ((colaPrev s b p? mp).1).mem x = magicAt s.mem x := by
  cases p? with
  | none => rfl
  | some pa =>
    cases mp with
    | false => rfl
    | true =>
      cases hbn : (getB s.mem b).anext <;>
        simp only [colaPrev, hbn] <;> simp [magicAt_updB]

theorem magicAt_colaNext (s : St) (b1 : Nat) (n? : Option Nat) (mn : Bool) (x : Nat) :
    magicAt (colaNext s b1 n? mn).mem x = magicAt s.mem x := by
  cases n? with
  | none => rfl
  | some na =>
    cases mn with
    | false => rfl
    | true =>
      cases hnn : (getB s.mem na).anext <;>
        simp only [colaNext, hnn] <;> simp [magicAt_updB]

theorem magicAt_cola (s : St) (b x : Nat) :
    magicAt ((cola s b).1).mem x = magicAt s.mem x := by
  unfold cola
  simp only []
  split <;>
    split <;>
      first
        | rfl
        | rw [magicAt_sidx_insert, magicAt_colaNext, magicAt_colaPrev,
            magicAt_remIf, magicAt_sidx_remove_exact, magicAt_remIf]

theorem heapInited_sidx_insert (s : St) (n : Nat) :
    (sidx_insert s n).heapInited = s.heapInited := rfl

theorem bInited_sidx_insert (s : St) (n : Nat) :
    (sidx_insert s n).bInited = s.bInited := rfl

theorem heapInited_sidx_remove_exact (s : St) (n : Nat) :
    (sidx_remove_exact s n).heapInited = s.heapInited := rfl

theorem bInited_sidx_remove_exact (s : St) (n : Nat) :
    (sidx_remove_exact s n).bInited = s.bInited := rfl

theorem heapInited_remIf (t : St) (o : Option Nat) (c : Bool) :
    (remIf t o c).heapInited = t.heapInited := by
  cases o <;> cases c <;> rfl

theorem bInited_remIf (t : St) (o : Option Nat) (c : Bool) :
    (remIf t o c).bInited = t.bInited := by
  cases o <;> cases c <;> rfl

theorem heapInited_colaPrev (s : St) (b : Nat) (o : Option Nat) (c : Bool) :
    ((colaPrev s b o c).1).heapInited = s.heapInited := by
  cases o <;> cases c <;> rfl

theorem bInited_colaPrev (s : St) (b : Nat) (o : Option Nat) (c : Bool) :
    ((colaPrev s b o c).1).bInited = s.bInited := by
  cases o <;> cases c <;> rfl

theorem heapInited_colaNext (s : St) (b1 : Nat) (o : Option Nat) (c : Bool) :
    (colaNext s b1 o c).heapInited = s.heapInited := by
  cases o <;> cases c <;> rfl

theorem bInited_colaNext (s : St) (b1 : Nat) (o : Option Nat) (c : Bool) :
    (colaNext s b1 o c).bInited = s.bInited := by
  cases o <;> cases c <;> rfl

theorem heapInited_cola (s : St) (b : Nat) :
    ((cola s b).1).heapInited = s.heapInited := by
  unfold cola
  simp only []
  split <;>
    split <;>
      first
        | rfl
        | rw [heapInited_sidx_insert, heapInited_colaNext, heapInited_colaPrev,
            heapInited_remIf, heapInited_sidx_remove_exact, heapInited_remIf]

theorem bInited_cola (s : St) (b : Nat) :
    ((cola s b).1).bInited = s.bInited := by
  unfold cola
  simp only []
  split <;>
    split <;>
      first
        | rfl
        | rw [bInited_sidx_insert, bInited_colaNext, bInited_colaPrev,
            bInited_remIf, bInited_sidx_remove_exact, bInited_remIf]

theorem heapInited_freeInsert (s : St) (blk : Nat) :
    (freeInsert s blk).heapInited = s.heapInited := by
  unfold freeInsert
  split <;> rfl

theorem bInited_freeInsert (s : St) (blk : Nat) :
    (freeInsert s blk).bInited = s.bInited := by
  unfold freeInsert
  split <;> rfl

theorem heapInited_freeStamp (s : St) (blk : Nat) :
    (freeStamp s blk).heapInited = s.heapInited := rfl

theorem bInited_freeStamp (s : St) (blk : Nat) :
    (freeStamp s blk).bInited = s.bInited := rfl

theorem bmagicAt_updBud (m : BMem) (a : Nat) (f : Bud → Bud)
    (hf : ∀ b, (f b).magic = b.magic) (x : Nat) :
    bmagicAt (updBud m a f) x = bmagicAt m x := by
  by_cases hx : x = a
  · subst hx; unfold bmagicAt; rw [getBud_updBud_self]; exact hf _
  · unfold bmagicAt; rw [getBud_updBud_ne _ _ _ _ hx]

theorem bmagicAt_bUnlink (bm : BMem) (bfl : List (Option Nat)) (a x : Nat) :
    bmagicAt (bUnlink bm bfl a).1 x = bmagicAt bm x := by
  cases hp : (getBud bm a).prev <;> cases hq : (getBud bm a).next <;>
    simp only [bUnlink, hp, hq] <;> simp [bmagicAt_updBud]

theorem bmagicAt_bPush (bm : BMem) (bfl : List (Option Nat)) (a x : Nat) :
    bmagicAt (bPush bm bfl a).1 x = bmagicAt bm x := by
  cases hh : bfl.getD (getBud bm a).order none <;>
    simp only [bPush, hh] <;> simp [bmagicAt_updBud]

theorem bfmTry_facts (s : St) (b : Nat) (r : St × Nat) (hr : bfmTry s b = some r) :
    (∀ x, bmagicAt r.1.bmem x = bmagicAt s.bmem x) ∧
    r.1.bInited = s.bInited ∧ r.1.heapInited = s.heapInited ∧ r.1.mem = s.mem := by
  unfold bfmTry at hr
  revert hr
  split
  · split
    · intro hr; cases hr
    · split
      · intro hr
        simp only [Option.some.injEq] at hr
        subst hr
        refine ⟨?_, rfl, rfl, rfl⟩
        intro x
        simp only []
        rw [bmagicAt_bPush]
        rw [bmagicAt_updBud]
        · rw [bmagicAt_bUnlink, bmagicAt_bUnlink]
        · intro c; rfl
      · intro hr; cases hr
  · intro hr; cases hr

theorem bfmLoop_facts :
    ∀ (fuel : Nat) (s : St) (b x : Nat),
      bmagicAt (bfmLoop s b fuel).bmem x = bmagicAt s.bmem x ∧
      (bfmLoop s b fuel).bInited = s.bInited ∧
      (bfmLoop s b fuel).heapInited = s.heapInited ∧
      (bfmLoop s b fuel).mem = s.mem := by
  intro fuel
  induction fuel with
  | zero => exact fun s b x => ⟨rfl, rfl, rfl, rfl⟩
  | succ fuel ih =>
    intro s b x
    unfold bfmLoop
    cases hr : bfmTry s b with
    | none => exact ⟨rfl, rfl, rfl, rfl⟩
    | some r =>
      simp only []
      obtain ⟨hm, hb1, hh1, hmem1⟩ := bfmTry_facts s b r hr
      obtain ⟨im, ib, ih1, imem⟩ := ih r.1 r.2 x
      exact ⟨by rw [im, hm], by rw [ib, hb1], by rw [ih1, hh1], by rw [imem, hmem1]⟩

theorem bfm_facts (s : St) (b : Nat) :
    bmagicAt (bfm s b).bmem b = MAGIC_F ∧
    (bfm s b).bInited = s.bInited ∧
    (bfm s b).heapInited = s.heapInited ∧
    (bfm s b).mem = s.mem := by
  unfold bfm
  simp only []
  refine ⟨?_, (bfmLoop_facts _ _ _ 0).2.1, (bfmLoop_facts _ _ _ 0).2.2.1,
    (bfmLoop_facts _ _ _ 0).2.2.2⟩
  rw [(bfmLoop_facts _ _ _ b).1]
  simp only []
  rw [bmagicAt_bPush]
  unfold bmagicAt
  rw [getBud_updBud_self]

/-- The magic tag at the freed header after the main-arena free path:
the stamp sets `M_free` and the re-indexing plus coalescing never touch
any header's magic field. -/
theorem free_main_path_magic (s1 : St) (blk : Nat) :
    magicAt ((cola (sidx_insert (freeStamp s1 blk) blk) blk).1).mem blk = MAGIC_F := by
  rw [magicAt_cola, magicAt_sidx_insert]
  unfold freeStamp magicAt
  simp only []
  rw [getB_updB_self]

/-- C8: free of null is a no-op; free of a pointer whose recovered
header's magic is not `M_alloc` (covering bogus pointers and double
frees, in either arena, or a completely unbootstrapped allocator)
returns with all state unchanged; and free is idempotent: freeing the
same handle twice in a row equals freeing it once. -/
theorem C8_free_null_invalid_idempotent :
    (∀ s : St, my_free s none = s) ∧
    (∀ (s : St) (p : Nat), ¬ recoveredMagic s p = some MAGIC_A → my_free s (some p) = s) ∧
    (∀ (s : St) (p : Option Nat), my_free (my_free s p) p = my_free s p) := by
  have silent : ∀ (s : St) (p : Nat), ¬ recoveredMagic s p = some MAGIC_A →
      my_free s (some p) = s := by
    intro s p h
    unfold recoveredMagic at h
    simp only [my_free]
    by_cases hb : s.bInited = true ∧ BUD_BASE ≤ p ∧ p < BUD_BASE + HEAP_SIZE
    · rw [if_pos hb] at h ⊢
      rw [if_neg]
      intro hmag
      exact h (by unfold bmagicAt; rw [hmag])
    · rw [if_neg hb] at h ⊢
      cases hh : s.heapInited with
      | false => rw [if_pos rfl]
      | true =>
        rw [if_pos hh] at h
        split
        · rfl
        · split
          · next hmag => exact absurd (by unfold magicAt; rw [hmag]) h
          · rfl
  refine ⟨fun s => rfl, silent, ?_⟩
  intro s p
  cases p with
  | none => rfl
  | some p =>
    by_cases hb : s.bInited = true ∧ BUD_BASE ≤ p ∧ p < BUD_BASE + HEAP_SIZE
    · by_cases hmag : (getBud s.bmem (p - BUDHDR)).magic = MAGIC_A
      · have h1 : my_free s (some p) = bfm s (p - BUDHDR) := by
          simp only [my_free]
          rw [if_pos hb, if_pos hmag]
        rw [h1]
        apply silent
        unfold recoveredMagic
        rw [if_pos ⟨by rw [(bfm_facts s _).2.1]; exact hb.1, hb.2⟩]
        rw [(bfm_facts s (p - BUDHDR)).1]
        decide
      · have h1 : my_free s (some p) = s := by
          simp only [my_free]
          rw [if_pos hb, if_neg hmag]
        rw [h1]
        exact h1
    · cases hh : s.heapInited with
      | false =>
        have h1 : my_free s (some p) = s := by
          simp only [my_free]
          rw [if_neg hb, if_pos hh]
        rw [h1]
        exact h1
      | true =>
        by_cases hmag : (getB s.mem (p - HDRSZ)).magic = MAGIC_A
        · have h1 : my_free s (some p) =
              (cola (sidx_insert (freeStamp (freeInsert s (p - HDRSZ)) (p - HDRSZ))
                (p - HDRSZ)) (p - HDRSZ)).1 := by
            simp only [my_free]
            rw [if_neg hb, if_neg (show ¬ (s.heapInited = false) by rw [hh]; decide),
              if_pos hmag]
          rw [h1]
          apply silent
          unfold recoveredMagic
          rw [if_neg]
          · rw [if_pos (by
              rw [heapInited_cola, heapInited_sidx_insert, heapInited_freeStamp,
                heapInited_freeInsert]
              exact hh)]
            rw [free_main_path_magic]
            decide
          · intro hc
            apply hb
            refine ⟨?_, hc.2⟩
            rw [← hc.1]
            rw [bInited_cola, bInited_sidx_insert, bInited_freeStamp, bInited_freeInsert]
        · have h1 : my_free s (some p) = s := by
            simp only [my_free]
            rw [if_neg hb, if_neg (show ¬ (s.heapInited = false) by rw [hh]; decide),
              if_neg hmag]
          rw [h1]
          exact h1

/-- Witness for C8's second conjunct: freeing a never-allocated pointer
in the bootstrapped arena is a no-op. -/
theorem C8_free_invalid_witness : my_free (heap_bootstrap st0) (some 500) = heap_bootstrap st0 :=
  C8_free_null_invalid_idempotent.2.1 (heap_bootstrap st0) 500 (by decide)

theorem chainS_nil_inv (m : Mem) (i : Nat) (p : Option Nat) (f : Nat)
    (h : chainS m i p f = some []) : p = none := by
  cases p with
  | none => rfl
  | some a =>
    cases f with
    | zero => cases h
    | succ f =>
      unfold chainS at h
      cases hc : chainS m i (snextAt m a i) f <;> rw [hc] at h <;> simp at h

theorem chainS_cons_inv (m : Mem) (i : Nat) (p : Option Nat) (f : Nat) (a : Nat)
    (l : List Nat) (h : chainS m i p f = some (a :: l)) :
    p = some a ∧ ∃ f1, f = f1 + 1 ∧ chainS m i (snextAt m a i) f1 = some l := by
  cases p with
  | none => simp [chainS] at h
  | some b =>
    cases f with
    | zero => cases h
    | succ f =>
      unfold chainS at h
      cases hc : chainS m i (snextAt m b i) f <;> rw [hc] at h
      · cases h
      · simp only [Option.some.injEq, List.cons.injEq] at h
        obtain ⟨hba, hl⟩ := h
        subst hba; subst hl
        exact ⟨rfl, f, rfl, hc⟩

theorem chainS_mono (m : Mem) (i : Nat) :
    ∀ (l : List Nat) (p : Option Nat) (f f' : Nat),
      chainS m i p f = some l → f ≤ f' → chainS m i p f' = some l := by
  intro l
  induction l with
  | nil => intro p f f' h _; rw [chainS_nil_inv m i p f h]; cases f' <;> rfl
  | cons a l ih =>
    intro p f f' h hff
    obtain ⟨hp, f1, hf, hrec⟩ := chainS_cons_inv m i p f a l h
    subst hp; subst hf
    cases f' with
    | zero => omega
    | succ f1' =>
      unfold chainS
      rw [ih _ f1 f1' hrec (by omega)]

theorem chainS_length (m : Mem) (i : Nat) :
    ∀ (l : List Nat) (p : Option Nat) (f : Nat),
      chainS m i p f = some l → l.length ≤ f := by
  intro l
  induction l with
  | nil => intro p f _; simp
  | cons a l ih =>
    intro p f h
    obtain ⟨hp, f1, hf, hrec⟩ := chainS_cons_inv m i p f a l h
    subst hf
    have := ih _ f1 hrec
    simp
    omega

theorem chainS_min (m : Mem) (i : Nat) :
    ∀ (l : List Nat) (p : Option Nat) (f : Nat),
      chainS m i p f = some l → chainS m i p l.length = some l := by
  intro l
  induction l with
  | nil => intro p f h; rw [chainS_nil_inv m i p f h]; rfl
  | cons a l ih =>
    intro p f h
    obtain ⟨hp, f1, hf, hrec⟩ := chainS_cons_inv m i p f a l h
    subst hp
    show chainS m i (some a) (l.length + 1) = some (a :: l)
    unfold chainS
    rw [ih _ f1 hrec]

theorem chainS_head (m : Mem) (i : Nat) (p : Option Nat) (f : Nat) (l : List Nat)
    (h : chainS m i p f = some l) : p = l.head? := by
  cases l with
  | nil => rw [chainS_nil_inv m i p f h]; rfl
  | cons a l => rw [(chainS_cons_inv m i p f a l h).1]; rfl

theorem chainS_suffix (m : Mem) (i : Nat) :
    ∀ (l1 : List Nat) (p : Option Nat) (f : Nat) (a : Nat) (l2 : List Nat),
      chainS m i p f = some (l1 ++ a :: l2) →
      chainS m i (some a) (l2.length + 1) = some (a :: l2) := by
  intro l1
  induction l1 with
  | nil =>
    intro p f a l2 h
    obtain ⟨hp, f1, hf, hrec⟩ := chainS_cons_inv m i p f a l2 h
    unfold chainS
    rw [chainS_min m i l2 _ f1 hrec]
  | cons b l1 ih =>
    intro p f a l2 h
    obtain ⟨hp, f1, hf, hrec⟩ := chainS_cons_inv m i p f b (l1 ++ a :: l2) h
    exact ih _ f1 a l2 hrec

theorem chainA_nil_inv (m : Mem) (p : Option Nat) (f : Nat)
    (h : chainA m p f = some []) : p = none := by
  cases p with
  | none => rfl
  | some a =>
    cases f with
    | zero => cases h
    | succ f =>
      unfold chainA at h
      cases hc : chainA m (getB m a).anext f <;> rw [hc] at h <;> simp at h

theorem chainA_cons_inv (m : Mem) (p : Option Nat) (f : Nat) (a : Nat)
    (l : List Nat) (h : chainA m p f = some (a :: l)) :
    p = some a ∧ ∃ f1, f = f1 + 1 ∧ chainA m (getB m a).anext f1 = some l := by
  cases p with
  | none => simp [chainA] at h
  | some b =>
    cases f with
    | zero => cases h
    | succ f =>
      unfold chainA at h
      cases hc : chainA m (getB m b).anext f <;> rw [hc] at h
      · cases h
      · simp only [Option.some.injEq, List.cons.injEq] at h
        obtain ⟨hba, hl⟩ := h
        subst hba; subst hl
        exact ⟨rfl, f, rfl, hc⟩

theorem chainA_mono (m : Mem) :
    ∀ (l : List Nat) (p : Option Nat) (f f' : Nat),
      chainA m p f = some l → f ≤ f' → chainA m p f' = some l := by
  intro l
  induction l with
  | nil => intro p f f' h _; rw [chainA_nil_inv m p f h]; cases f' <;> rfl
  | cons a l ih =>
    intro p f f' h hff
    obtain ⟨hp, f1, hf, hrec⟩ := chainA_cons_inv m p f a l h
    subst hp; subst hf
    cases f' with
    | zero => omega
    | succ f1' =>
      unfold chainA
      rw [ih _ f1 f1' hrec (by omega)]

theorem chainA_length (m : Mem) :
    ∀ (l : List Nat) (p : Option Nat) (f : Nat),
      chainA m p f = some l → l.length ≤ f := by
  intro l
  induction l with
  | nil => intro p f _; simp
  | cons a l ih =>
    intro p f h
    obtain ⟨hp, f1, hf, hrec⟩ := chainA_cons_inv m p f a l h
    subst hf
    have := ih _ f1 hrec
    simp
    omega

theorem chainA_min (m : Mem) :
    ∀ (l : List Nat) (p : Option Nat) (f : Nat),
      chainA m p f = some l → chainA m p l.length = some l := by
  intro l
  induction l with
  | nil => intro p f h; rw [chainA_nil_inv m p f h]; rfl
  | cons a l ih =>
    intro p f h
    obtain ⟨hp, f1, hf, hrec⟩ := chainA_cons_inv m p f a l h
    subst hp
    show chainA m (some a) (l.length + 1) = some (a :: l)
    unfold chainA
    rw [ih _ f1 hrec]

theorem chainA_head (m : Mem) (p : Option Nat) (f : Nat) (l : List Nat)
    (h : chainA m p f = some l) : p = l.head? := by
  cases l with
  | nil => rw [chainA_nil_inv m p f h]; rfl
  | cons a l => rw [(chainA_cons_inv m p f a l h).1]; rfl

theorem chainA_suffix (m : Mem) :
    ∀ (l1 : List Nat) (p : Option Nat) (f : Nat) (a : Nat) (l2 : List Nat),
      chainA m p f = some (l1 ++ a :: l2) →
      chainA m (some a) (l2.length + 1) = some (a :: l2) := by
  intro l1
  induction l1 with
  | nil =>
    intro p f a l2 h
    obtain ⟨hp, f1, hf, hrec⟩ := chainA_cons_inv m p f a l2 h
    unfold chainA
    rw [chainA_min m l2 _ f1 hrec]
  | cons b l1 ih =>
    intro p f a l2 h
    obtain ⟨hp, f1, hf, hrec⟩ := chainA_cons_inv m p f b (l1 ++ a :: l2) h
    exact ih _ f1 a l2 hrec

theorem lastD_append_cons (c : Nat) :
    ∀ (xs ys : List Nat) (cur : Option Nat), lastD (xs ++ c :: ys) cur = lastD ys (some c) := by
  intro xs
  induction xs with
  | nil => intro ys cur; rfl
  | cons x xs ih => intro ys cur; exact ih ys (some x)

theorem lastD_some_ne_none : ∀ (l : List Nat) (a : Nat), ¬ lastD l (some a) = none := by
  intro l
  induction l with
  | nil => intro a h; cases h
  | cons b l ih => intro a h; exact ih b h

theorem lastD_eq_none (l : List Nat) (cur : Option Nat) (h : lastD l cur = none) :
    l = [] ∧ cur = none := by
  cases l with
  | nil => exact ⟨rfl, h⟩
  | cons a l => exact absurd h (lastD_some_ne_none l a)

theorem lastD_eq_some (c : Nat) :
    ∀ (l : List Nat) (h : lastD l none = some c), ∃ l1, l = l1 ++ [c] := by
  have aux : ∀ (l : List Nat) (a : Nat), lastD l (some a) = some c →
      (a = c ∧ l = []) ∨ ∃ l1, l = l1 ++ [c] := by
    intro l
    induction l with
    | nil =>
      intro a h
      simp only [lastD, Option.some.injEq] at h
      exact Or.inl ⟨h, rfl⟩
    | cons b l ih =>
      intro a h
      rcases ih b h with ⟨hbc, hl⟩ | ⟨l1, hl⟩
      · subst hbc; subst hl; exact Or.inr ⟨[], rfl⟩
      · exact Or.inr ⟨b :: l1, by rw [hl]; rfl⟩
  intro l h
  cases l with
  | nil => cases h
  | cons a l =>
    rcases aux l a h with ⟨hac, hl⟩ | ⟨l1, hl⟩
    · subst hac; subst hl; exact ⟨[], rfl⟩
    · exact ⟨a :: l1, by rw [hl]; rfl⟩

theorem takeWhile_append_of_all (P : Nat → Bool) :
    ∀ (s l : List Nat), (∀ x ∈ s, P x = true) →
      (s ++ l).takeWhile P = s ++ l.takeWhile P := by
  intro s
  induction s with
  | nil => intro l _; rfl
  | cons a s ih =>
    intro l hall
    have ha : P a = true := hall a (by simp)
    simp only [List.cons_append, List.takeWhile_cons, ha, if_pos]
    rw [ih l (fun x hx => hall x (by simp [hx]))]

theorem mem_takeWhile_sub (P : Nat → Bool) :
    ∀ (l : List Nat) (x : Nat), x ∈ l.takeWhile P → x ∈ l ∧ P x = true := by
  intro l
  induction l with
  | nil => intro x h; cases h
  | cons a l ih =>
    intro x h
    rw [List.takeWhile_cons] at h
    by_cases ha : P a = true
    · rw [if_pos ha] at h
      rcases List.mem_cons.mp h with hx | hx
      · subst hx; exact ⟨List.mem_cons_self _ _, ha⟩
      · obtain ⟨h1, h2⟩ := ih x hx
        exact ⟨List.mem_cons_of_mem _ h1, h2⟩
    · rw [if_neg ha] at h
      cases h

theorem scanLtSz_run (m : Mem) (need i : Nat) :
    ∀ (suf : List Nat) (p : Option Nat) (f g : Nat) (cur : Option Nat),
      chainS m i p f = some suf → suf.length ≤ g →
      scanLtSz m need i cur p g =
        lastD (suf.takeWhile (fun a => decide ((getB m a).sz < need))) cur := by
  intro suf
  induction suf with
  | nil =>
    intro p f g cur h _
    rw [chainS_nil_inv m i p f h]
    cases g <;> rfl
  | cons a rest ih =>
    intro p f g cur h hg
    obtain ⟨hp, f1, hf, hrec⟩ := chainS_cons_inv m i p f a rest h
    subst hp
    cases g with
    | zero => simp at hg
    | succ g =>
      unfold scanLtSz
      simp only []
      rw [List.takeWhile_cons]
      by_cases hlt : (getB m a).sz < need
      · rw [if_pos hlt, if_pos (by simpa using hlt)]
        rw [ih (snextAt m a i) f1 g (some a) hrec (by simp at hg; omega)]
        rfl
      · rw [if_neg hlt, if_neg (by simpa using hlt)]
        rfl

theorem geDescend_run (m : Mem) (heads : List (Option Nat)) (need : Nat) (K : List Nat)
    (hsort : K.Pairwise (keyLt m))
    (hch : ∀ j, j < SKLVL → chainS m j (heads.getD j none) FUEL =
        some (K.filter (fun a => decide (j < lvlAt m a)))) :
    ∀ (i : Nat), i ≤ SKLVL →
      geDescend m heads need i
        (lastD ((K.filter (fun a => decide (i < lvlAt m a))).takeWhile
          (fun a => decide ((getB m a).sz < need))) none) =
      lastD ((K.filter (fun a => decide (0 < lvlAt m a))).takeWhile
        (fun a => decide ((getB m a).sz < need))) none := by
  intro i
  induction i with
  | zero => intro _; rfl
  | succ i ih =>
    intro hle
    have hi : i < SKLVL := by omega
    have hstep : scanLtSz m need i
        (lastD ((K.filter (fun a => decide (i + 1 < lvlAt m a))).takeWhile
          (fun a => decide ((getB m a).sz < need))) none)
        (match lastD ((K.filter (fun a => decide (i + 1 < lvlAt m a))).takeWhile
            (fun a => decide ((getB m a).sz < need))) none with
          | some c => snextAt m c i
          | none => heads.getD i none) FUEL =
        lastD ((K.filter (fun a => decide (i < lvlAt m a))).takeWhile
          (fun a => decide ((getB m a).sz < need))) none := by
      cases hcur : lastD ((K.filter (fun a => decide (i + 1 < lvlAt m a))).takeWhile
          (fun a => decide ((getB m a).sz < need))) none with
      | none =>
        simp only []
        exact scanLtSz_run m need i _ _ FUEL FUEL none (hch i hi)
          (chainS_length m i _ _ FUEL (hch i hi))
      | some c =>
        simp only []
        obtain ⟨l1, hdec⟩ := lastD_eq_some c _ hcur
        have hcA : c ∈ (K.filter (fun a => decide (i + 1 < lvlAt m a))).takeWhile
            (fun a => decide ((getB m a).sz < need)) := by
          rw [hdec]; simp
        obtain ⟨hcSL1, hcP⟩ := mem_takeWhile_sub _ _ _ hcA
        have hcK : c ∈ K ∧ i + 1 < lvlAt m c := by
          have := List.mem_filter.mp hcSL1
          exact ⟨this.1, by simpa using this.2⟩
        have hcSLi : c ∈ K.filter (fun a => decide (i < lvlAt m a)) :=
          List.mem_filter.mpr ⟨hcK.1, by simp; omega⟩
        obtain ⟨s1, t1, hSL⟩ := List.append_of_mem hcSLi
        have hchain := hch i hi
        rw [hSL] at hchain
        have hsuf := chainS_suffix m i s1 _ FUEL c t1 hchain
        obtain ⟨_, f2, hf2, hrec2⟩ := chainS_cons_inv m i _ _ c t1 hsuf
        have hlen : t1.length ≤ FUEL := by
          have h1 := chainS_length m i _ _ FUEL hchain
          simp at h1
          omega
        rw [scanLtSz_run m need i t1 (snextAt m c i) f2 FUEL (some c) hrec2 hlen]
        rw [hSL]
        have hallP : ∀ x ∈ s1, (fun a => decide ((getB m a).sz < need)) x = true := by
          intro x hx
          have hpair : (s1 ++ c :: t1).Pairwise (keyLt m) := by
            rw [← hSL]; exact List.Pairwise.filter _ hsort
          have hxc : keyLt m x c :=
            (List.pairwise_append.mp hpair).2.2 x hx c (List.mem_cons_self _ _)
          have hcn : (getB m c).sz < need := by simpa using hcP
          simp only [decide_eq_true_eq]
          unfold keyLt szAt at hxc
          rcases hxc with h1 | ⟨h1, _⟩ <;> omega
        rw [takeWhile_append_of_all _ s1 (c :: t1) hallP]
        rw [List.takeWhile_cons, if_pos hcP]
        rw [lastD_append_cons]
    unfold geDescend
    simp only []
    rw [hstep]
    exact ih (by omega)

theorem heap_bootstrap_inited (s : St) (h : s.heapInited = true) : heap_bootstrap s = s := by
  unfold heap_bootstrap
  rw [if_pos h]

/-- Under the well-formedness invariant, `sidx_ge` returns the first
node of the key-ordered index whose size is at least `need`. -/
theorem sidx_ge_eq (s : St) (L K : List Nat) (need : Nat) (h : MainWF s L K) :
    sidx_ge s need =
      (K.dropWhile (fun a => decide ((getB s.mem a).sz < need))).head? := by
  obtain ⟨hinit, hcha, hLsort, hprev, hperm, hKsort, hlvl, hch⟩ := h
  have hSL0 : K.filter (fun a => decide (0 < lvlAt s.mem a)) = K := by
    apply List.filter_eq_self.mpr
    intro a ha
    have := (hlvl a ha).1
    simp
    omega
  have hA6 : K.filter (fun a => decide (SKLVL < lvlAt s.mem a)) = [] := by
    apply List.filter_eq_nil_iff.mpr
    intro a ha
    have := (hlvl a ha).2
    simp
    omega
  have hrun := geDescend_run s.mem s.sheads need K hKsort hch SKLVL (Nat.le_refl _)
  rw [hA6] at hrun
  unfold sidx_ge
  rw [show (List.takeWhile (fun a => decide ((getB s.mem a).sz < need)) []) = ([] : List Nat)
    from rfl] at hrun
  rw [show lastD [] none = (none : Option Nat) from rfl] at hrun
  rw [hrun, hSL0]
  have hK := hch 0 (by norm_num [SKLVL])
  rw [hSL0] at hK
  cases hlast : lastD (K.takeWhile (fun a => decide ((getB s.mem a).sz < need))) none with
  | none =>
    obtain ⟨htw, _⟩ := lastD_eq_none _ _ hlast
    have hdw : K.dropWhile (fun a => decide ((getB s.mem a).sz < need)) = K := by
      have := List.takeWhile_append_dropWhile
        (p := fun a => decide ((getB s.mem a).sz < need)) (l := K)
      rw [htw] at this
      simpa using this
    rw [hdw]
    exact chainS_head s.mem 0 _ FUEL K hK
  | some c =>
    obtain ⟨l1, hdec⟩ := lastD_eq_some c _ hlast
    have hsplit : K = l1 ++ c ::
        K.dropWhile (fun a => decide ((getB s.mem a).sz < need)) := by
      have := List.takeWhile_append_dropWhile
        (p := fun a => decide ((getB s.mem a).sz < need)) (l := K)
      rw [hdec] at this
      conv_lhs => rw [← this]
      simp
    have hchain := hK
    rw [hsplit] at hchain
    have hsuf := chainS_suffix s.mem 0 l1 _ FUEL c _ hchain
    obtain ⟨_, f2, hf2, hrec2⟩ := chainS_cons_inv s.mem 0 _ _ c _ hsuf
    exact chainS_head s.mem 0 _ f2 _ hrec2

theorem dropWhile_head_false (P : Nat → Bool) :
    ∀ (l : List Nat) (b : Nat), (l.dropWhile P).head? = some b → P b = false := by
  intro l
  induction l with
  | nil => intro b h; cases h
  | cons a l ih =>
    intro b h
    rw [List.dropWhile_cons] at h
    by_cases ha : P a = true
    · rw [if_pos ha] at h
      exact ih b h
    · rw [if_neg ha] at h
      simp only [List.head?_cons, Option.some.injEq] at h
      subst h
      exact Bool.eq_false_iff.mpr ha

theorem magicAt_stampA_self (t : St) (c : Nat) : magicAt (stampA t c).mem c = MAGIC_A := by
  unfold stampA magicAt
  simp only []
  rw [getB_updB_self]

/-- C4: under the mutual-consistency invariant, for every `n > 0`,
`malloc_best_fit(n)` returns null exactly when no free block has size
at least `n`, and when the free block `c` with the minimal
`(size, address)` key among those of size ≥ `n` exists (the block
first-ge(n) yields), the call allocates exactly `c`: it returns payload
`c + Hsz` and stamps `c` with `M_alloc`. -/
theorem C4_best_fit_selects_minimal (s : St) (L K : List Nat) (n : Nat)
    (hn : 0 < n) (h : MainWF s L K) :
    ((malloc_best_fit s n).2 = none ↔ ∀ a ∈ L, (getB s.mem a).sz < n) ∧
    (∀ c, c ∈ L → n ≤ (getB s.mem c).sz →
      (∀ a ∈ L, n ≤ (getB s.mem a).sz → keyLe s.mem c a) →
      (malloc_best_fit s n).2 = some (c + HDRSZ) ∧
      magicAt ((malloc_best_fit s n).1).mem c = MAGIC_A) := by
  have hge := sidx_ge_eq s L K n h
  obtain ⟨hinit, hcha, hLsort, hprev, hperm, hKsort, hlvl, hch⟩ := h
  have hne : ¬ n = 0 := by omega
  have hsg : sidx_ge { s with strategy := 3 } n = sidx_ge s n := rfl
  have hbf : malloc_best_fit s n =
      (match sidx_ge s n with
       | none => ({ s with strategy := 3 }, none)
       | some best =>
         (stampA (allocCore { s with strategy := 3 } best n).1 best,
          some (best + HDRSZ))) := by
    simp only [malloc_best_fit]
    rw [if_neg hne, heap_bootstrap_inited s hinit, hsg]
  constructor
  · cases hdw : (K.dropWhile (fun a => decide ((getB s.mem a).sz < n))).head? with
    | none =>
      rw [hbf, hge, hdw]
      constructor
      · intro _
        have hnil : K.dropWhile (fun a => decide ((getB s.mem a).sz < n)) = [] :=
          List.head?_eq_none_iff.mp hdw
        have hall := List.dropWhile_eq_nil_iff.mp hnil
        intro a ha
        have := hall a (hperm.mem_iff.mpr ha)
        simpa using this
      · intro _; rfl
    | some best =>
      rw [hbf, hge, hdw]
      constructor
      · intro hcon
        exact absurd hcon (by simp)
      · intro hall
        exfalso
        have hbK : best ∈ K := by
          have hmem : best ∈ K.dropWhile (fun a => decide ((getB s.mem a).sz < n)) := by
            cases hd : K.dropWhile (fun a => decide ((getB s.mem a).sz < n)) with
            | nil => rw [hd] at hdw; cases hdw
            | cons x xs =>
              rw [hd] at hdw
              simp only [List.head?_cons, Option.some.injEq] at hdw
              subst hdw
              exact List.mem_cons_self _ _
          exact (List.dropWhile_sublist _).subset hmem
        have hfalse := dropWhile_head_false _ K best hdw
        have := hall best (hperm.mem_iff.mp hbK)
        simp at hfalse
        omega
  · intro c hcL hcsz hmin
    have hcK : c ∈ K := hperm.mem_iff.mpr hcL
    have hhd : (K.dropWhile (fun a => decide ((getB s.mem a).sz < n))).head? = some c := by
      cases hdw : (K.dropWhile (fun a => decide ((getB s.mem a).sz < n))).head? with
      | none =>
        exfalso
        have hnil : K.dropWhile (fun a => decide ((getB s.mem a).sz < n)) = [] :=
          List.head?_eq_none_iff.mp hdw
        have := List.dropWhile_eq_nil_iff.mp hnil c hcK
        simp at this
        omega
      | some best =>
        have hbK : best ∈ K := by
          have hmem : best ∈ K.dropWhile (fun a => decide ((getB s.mem a).sz < n)) := by
            cases hd : K.dropWhile (fun a => decide ((getB s.mem a).sz < n)) with
            | nil => rw [hd] at hdw; cases hdw
            | cons x xs =>
              rw [hd] at hdw
              simp only [List.head?_cons, Option.some.injEq] at hdw
              subst hdw
              exact List.mem_cons_self _ _
          exact (List.dropWhile_sublist _).subset hmem
        have hbsz : n ≤ (getB s.mem best).sz := by
          have := dropWhile_head_false _ K best hdw
          simp at this
          omega
        have hmle := hmin best (hperm.mem_iff.mp hbK) hbsz
        have hcdrop : c ∈ K.dropWhile (fun a => decide ((getB s.mem a).sz < n)) := by
          have hKeq := List.takeWhile_append_dropWhile
            (p := fun a => decide ((getB s.mem a).sz < n)) (l := K)
          have : c ∈ K.takeWhile (fun a => decide ((getB s.mem a).sz < n)) ∨
              c ∈ K.dropWhile (fun a => decide ((getB s.mem a).sz < n)) := by
            rw [← List.mem_append, hKeq]
            exact hcK
          rcases this with hc | hc
          · exfalso
            have := (mem_takeWhile_sub _ K c hc).2
            simp at this
            omega
          · exact hc
        cases hd : K.dropWhile (fun a => decide ((getB s.mem a).sz < n)) with
        | nil => rw [hd] at hcdrop; cases hcdrop
        | cons x xs =>
          rw [hd] at hdw
          simp only [List.head?_cons, Option.some.injEq] at hdw
          rw [hd] at hcdrop
          rcases List.mem_cons.mp hcdrop with hceq | hctl
          · rw [hceq, hdw]
          · exfalso
            have hpair : (x :: xs).Pairwise (keyLt s.mem) := by
              rw [← hd]
              exact hKsort.sublist (List.dropWhile_sublist _)
            have hbc : keyLt s.mem x c :=
              (List.pairwise_cons.mp hpair).1 c hctl
            have hmle2 : keyLe s.mem c x := by rw [← hdw] at hmle; exact hmle
            unfold keyLt szAt at hbc
            unfold keyLe szAt at hmle2
            rcases hbc with h1 | ⟨h1, h2⟩ <;> rcases hmle2 with h3 | ⟨h3, h4⟩ <;> omega
    rw [hbf, hge, hhd]
    exact ⟨rfl, magicAt_stampA_self _ _⟩

/-- Witness for C4 at the bootstrap state: the sole free block 0 is the
minimal fitting block for a request of 64. -/
theorem C4_best_fit_selects_minimal_witness :
    (malloc_best_fit (heap_bootstrap st0) 64).2 = some (0 + HDRSZ) ∧
    magicAt ((malloc_best_fit (heap_bootstrap st0) 64).1).mem 0 = MAGIC_A :=
  (C4_best_fit_selects_minimal (heap_bootstrap st0) [0] [0] 64 (by decide)
    (by unfold MainWF; decide)).2 0 (by decide) (by decide) (by decide)

theorem szAt_updB (m : Mem) (a : Nat) (f : FreeBlk → FreeBlk)
    (hf : ∀ b, (f b).sz = b.sz) (x : Nat) :
    (getB (updB m a f) x).sz = (getB m x).sz := by
  by_cases hx : x = a
  · subst hx; rw [getB_updB_self]; exact hf _
  · rw [getB_updB_ne _ _ _ _ hx]

theorem szAt_alu (s : St) (c x : Nat) : (getB (alu s c).mem x).sz = (getB s.mem x).sz := by
  cases hp : (getB s.mem c).aprev <;> cases hq : (getB s.mem c).anext <;>
    simp only [alu, hp, hq] <;>
    simp [szAt_updB]

theorem szAt_spliceRem (c : Nat) (upd : List (Option Nat)) :
    ∀ (cnt : Nat) (m : Mem) (heads : List (Option Nat)) (i x : Nat),
      (getB (spliceRem c upd m heads i cnt).1 x).sz = (getB m x).sz := by
  intro cnt
  induction cnt with
  | zero => intro m heads i x; rfl
  | succ cnt ih =>
    intro m heads i x
    unfold spliceRem
    cases upd.getD i none with
    | none =>
      simp only []
      split
      · rw [ih]
      · rw [ih]
    | some ua =>
      simp only []
      split
      · rw [ih]
        simp [szAt_updB]
      · rw [ih]

theorem szAt_sidx_remove_exact (s : St) (c x : Nat) :
    (getB (sidx_remove_exact s c).mem x).sz = (getB s.mem x).sz := by
  simp only [sidx_remove_exact]
  rw [szAt_spliceRem]

theorem alist_head_smt (s : St) (blk need : Nat) :
    ((smt s blk need).1).alist_head = s.alist_head := by
  simp only [smt]
  split <;> rfl

theorem rover_smt (s : St) (blk need : Nat) :
    ((smt s blk need).1).rover = s.rover := by
  simp only [smt]
  split <;> rfl

theorem aprevOk_decomp (m : Mem) (c : Nat) :
    ∀ (l1 : List Nat) (prev : Option Nat) (l2 : List Nat),
      aprevOkB m prev (l1 ++ c :: l2) = true → (getB m c).aprev = lastD l1 prev := by
  intro l1
  induction l1 with
  | nil =>
    intro prev l2 h
    simp only [List.nil_append, aprevOkB, Bool.and_eq_true, decide_eq_true_eq] at h
    exact h.1
  | cons a l1 ih =>
    intro prev l2 h
    simp only [List.cons_append, aprevOkB, Bool.and_eq_true] at h
    exact ih (some a) l2 h.2

/-- A no-hit walk of the circular next-fit scan: starting at `cur`, all
the blocks of the visited segment `cur :: seg` are too small and the
scan either steps past them to the continuation of the chain, or wraps
to the list head when the chain ends. -/
theorem nfLoop_skip (s : St) (n start : Nat) :
    ∀ (seg : List Nat) (cur : Nat) (rest : List Nat) (f g : Nat),
      chainA s.mem (some cur) f = some (cur :: (seg ++ rest)) →
      (∀ x ∈ cur :: seg, (getB s.mem x).sz < n) →
      start ∉ seg →
      nfLoop s n start cur ((cur :: seg).length + g) =
        (match rest with
         | d :: _ => if d = start then (s, none) else nfLoop s n start d g
         | [] =>
           match s.alist_head with
           | some h => if h = start then (s, none) else nfLoop s n start h g
           | none => (s, none)) := by
  intro seg
  induction seg with
  | nil =>
    intro cur rest f g hch hsz _
    obtain ⟨_, f1, hf, hrec⟩ := chainA_cons_inv s.mem _ f cur _ hch
    have hnext : (getB s.mem cur).anext = rest.head? := chainA_head s.mem _ f1 rest hrec
    show nfLoop s n start cur (1 + g) = _
    rw [show 1 + g = g + 1 by omega]
    conv_lhs => unfold nfLoop
    rw [if_neg (by have := hsz cur (by simp); omega)]
    cases rest with
    | nil =>
      rw [show (getB s.mem cur).anext = none from hnext]
    | cons d rest' =>
      rw [show (getB s.mem cur).anext = some d from hnext]
  | cons b seg' ih =>
    intro cur rest f g hch hsz hstart
    obtain ⟨_, f1, hf, hrec⟩ := chainA_cons_inv s.mem _ f cur _ hch
    have hnext : (getB s.mem cur).anext = some b := by
      rw [chainA_head s.mem _ f1 _ hrec]
      rfl
    show nfLoop s n start cur ((b :: seg').length + 1 + g) = _
    rw [show (b :: seg').length + 1 + g = ((b :: seg').length + g) + 1 by omega]
    conv_lhs => unfold nfLoop
    rw [if_neg (by have := hsz cur (by simp); omega)]
    rw [hnext]
    simp only []
    rw [if_neg (show ¬ b = start by
      intro hbs; exact hstart (by simp [← hbs]))]
    exact ih b rest f1 g (by rw [← hnext]; exact hrec)
      (fun x hx => hsz x (List.mem_cons_of_mem _ hx))
      (fun hx => hstart (List.mem_cons_of_mem _ hx))

theorem alu_alist_head (s : St) (c : Nat) :
    (alu s c).alist_head =
      (match (getB s.mem c).aprev with
       | some _ => s.alist_head
       | none => (getB s.mem c).anext) := rfl

theorem alb_alist_head (s : St) (prev next : Option Nat) (n : Nat) :
    (alb s prev next n).alist_head =
      (match prev with
       | some _ => s.alist_head
       | none => some n) := by
  cases prev <;> cases next <;> rfl

theorem alist_head_sidx_insert (s : St) (n : Nat) :
    (sidx_insert s n).alist_head = s.alist_head := rfl

theorem alist_head_sidx_remove_exact (s : St) (n : Nat) :
    (sidx_remove_exact s n).alist_head = s.alist_head := rfl

theorem allocCore_next (s : St) (cur size : Nat) :
    (allocCore s cur size).2.2 = (getB s.mem cur).anext := rfl

theorem allocCore_rem (s : St) (cur size : Nat) :
    (allocCore s cur size).2.1 =
      (smt (sidx_remove_exact (alu s cur) cur) cur size).2 := rfl

theorem allocCore_st (s : St) (cur size : Nat) :
    (allocCore s cur size).1 =
      (match (smt (sidx_remove_exact (alu s cur) cur) cur size).2 with
       | some rem =>
         sidx_insert (alb (smt (sidx_remove_exact (alu s cur) cur) cur size).1
           (getB s.mem cur).aprev (getB s.mem cur).anext rem) rem
       | none => (smt (sidx_remove_exact (alu s cur) cur) cur size).1) := rfl

theorem smt_rem (s : St) (blk need : Nat) :
    (smt s blk need).2 =
      (if HDRSZ + need + HDRSZ + MIN_TAIL ≤ HDRSZ + (getB s.mem blk).sz
       then some (blk + (HDRSZ + need)) else none) := by
  simp only [smt]
  by_cases h : HDRSZ + need + HDRSZ + MIN_TAIL ≤ HDRSZ + (getB s.mem blk).sz
  · rw [if_pos h, if_pos h]
  · rw [if_neg h, if_neg h]

theorem allocCore_head_split (s : St) (cur size rem : Nat)
    (h : (smt (sidx_remove_exact (alu s cur) cur) cur size).2 = some rem) :
    (allocCore s cur size).1.alist_head =
      (match (getB s.mem cur).aprev with
       | some _ => s.alist_head
       | none => some rem) := by
  rw [allocCore_st, h]
  simp only []
  rw [alist_head_sidx_insert, alb_alist_head]
  cases hap : (getB s.mem cur).aprev with
  | none => rfl
  | some q =>
    simp only []
    rw [alist_head_smt, alist_head_sidx_remove_exact, alu_alist_head, hap]

theorem allocCore_head_nosplit (s : St) (cur size : Nat)
    (h : (smt (sidx_remove_exact (alu s cur) cur) cur size).2 = none) :
    (allocCore s cur size).1.alist_head = (alu s cur).alist_head := by
  rw [allocCore_st, h]
  simp only []
  rw [alist_head_smt, alist_head_sidx_remove_exact]

theorem rover_stampA (s : St) (cur : Nat) : (stampA s cur).rover = s.rover := rfl

theorem nfHit_snd (r : St × Option Nat × Option Nat) (cur : Nat) :
    (nfHit r cur).2 = some (cur + HDRSZ) := rfl

theorem nfHit_rover_split (r : St × Option Nat × Option Nat) (cur rem : Nat)
    (h1 : r.2.1 = some rem) (h2 : ¬ r.1.alist_head = none) :
    (nfHit r cur).1.rover = some rem := by
  simp only [nfHit, h1, rover_stampA]
  split
  · next hc => exact absurd hc h2
  · rfl

theorem nfHit_rover_nosplit (r : St × Option Nat × Option Nat) (cur : Nat)
    (h1 : r.2.1 = none) :
    (nfHit r cur).1.rover =
      (match r.1.alist_head with
       | none => none
       | some h =>
         match r.2.2 with
         | some nx => some nx
         | none => some h) := by
  simp only [nfHit, h1, rover_stampA]
  cases hah : r.1.alist_head with
  | none =>
    simp only []
    rw [if_pos trivial]
  | some h =>
    simp only []
    rw [if_neg (fun hx => Option.noConfusion hx)]

theorem nfLoop_hit (s : St) (n start c g : Nat) (hsz : n ≤ (getB s.mem c).sz) :
    nfLoop s n start c (g + 1) = nfHit (allocCore s c n) c := by
  conv_lhs => unfold nfLoop
  rw [if_pos hsz]

/-- The next-fit hit step: at a block `c` of sufficient size, the loop
allocates `c` (returning payload `c + Hsz`) and sets the rover to the
split remainder when one is carved, and otherwise to `c`'s successor,
wrapping to the (post-unlink) list head. -/
theorem nfLoop_hit_result (s1 : St) (L P1 P2 : List Nat) (n start c g : Nat)
    (hch : chainA s1.mem s1.alist_head FUEL = some L)
    (hprev : aprevOkB s1.mem none L = true)
    (hLc : L = P1 ++ c :: P2)
    (hsz : n ≤ (getB s1.mem c).sz) :
    (nfLoop s1 n start c (g + 1)).2 = some (c + HDRSZ) ∧
    (nfLoop s1 n start c (g + 1)).1.rover =
      (if HDRSZ + n + HDRSZ + MIN_TAIL ≤ HDRSZ + (getB s1.mem c).sz
       then some (c + (HDRSZ + n))
       else (P2 ++ P1).head?) := by
  have hnext : (getB s1.mem c).anext = P2.head? := by
    rw [hLc] at hch
    obtain ⟨_, f2, _, hrec2⟩ :=
      chainA_cons_inv s1.mem _ _ c P2 (chainA_suffix s1.mem P1 _ FUEL c P2 hch)
    exact chainA_head s1.mem _ f2 P2 hrec2
  have haprev : (getB s1.mem c).aprev = lastD P1 none := by
    rw [hLc] at hprev
    exact aprevOk_decomp s1.mem c P1 none P2 hprev
  have hhead : s1.alist_head = (P1 ++ c :: P2).head? := by
    rw [← hLc]
    exact chainA_head s1.mem _ FUEL L hch
  have hsz2 : (getB (sidx_remove_exact (alu s1 c) c).mem c).sz = (getB s1.mem c).sz := by
    rw [szAt_sidx_remove_exact, szAt_alu]
  have haluh : (alu s1 c).alist_head = (P1 ++ P2).head? := by
    rw [alu_alist_head, haprev]
    cases P1 with
    | nil =>
      simp only [lastD]
      rw [hnext]
      rfl
    | cons p0 P1' =>
      obtain ⟨q, hq⟩ : ∃ q, lastD (p0 :: P1') none = some q := by
        cases hq : lastD (p0 :: P1') none with
        | none => exact absurd hq (lastD_some_ne_none P1' p0)
        | some q => exact ⟨q, rfl⟩
      rw [hq]
      simp only []
      rw [hhead]
      rfl
  rw [nfLoop_hit s1 n start c g hsz]
  by_cases hcond : HDRSZ + n + HDRSZ + MIN_TAIL ≤ HDRSZ + (getB s1.mem c).sz
  · have hrem : (allocCore s1 c n).2.1 = some (c + (HDRSZ + n)) := by
      rw [allocCore_rem, smt_rem, hsz2, if_pos hcond]
    refine ⟨nfHit_snd _ _, ?_⟩
    rw [if_pos hcond]
    refine nfHit_rover_split _ _ _ hrem ?_
    rw [allocCore_head_split s1 c n _ (by rw [← allocCore_rem]; exact hrem)]
    rw [haprev]
    cases P1 with
    | nil => simp [lastD]
    | cons p0 P1' =>
      obtain ⟨q, hq⟩ : ∃ q, lastD (p0 :: P1') none = some q := by
        cases hq : lastD (p0 :: P1') none with
        | none => exact absurd hq (lastD_some_ne_none P1' p0)
        | some q => exact ⟨q, rfl⟩
      rw [hq]
      simp only []
      rw [hhead]
      simp
  · have hrem : (allocCore s1 c n).2.1 = none := by
      rw [allocCore_rem, smt_rem, hsz2, if_neg hcond]
    refine ⟨nfHit_snd _ _, ?_⟩
    rw [if_neg hcond]
    rw [nfHit_rover_nosplit _ _ hrem]
    rw [allocCore_head_nosplit s1 c n (by rw [← allocCore_rem]; exact hrem)]
    rw [haluh, allocCore_next, hnext]
    cases P1 with
    | nil =>
      cases P2 with
      | nil => rfl
      | cons nx P2' => rfl
    | cons p0 P1' =>
      cases P2 with
      | nil => rfl
      | cons nx P2' => rfl


theorem malloc_next_fit_red (s : St) (n h0 start : Nat)
    (hn : ¬ n = 0) (hinit : s.heapInited = true)
    (hh : s.alist_head = some h0)
    (hrv : s.rover = some start ∨ (s.rover = none ∧ start = h0)) :
    malloc_next_fit s n =
      nfLoop { s with strategy := 2, rover := some start } n start start FUEL := by
  simp only [malloc_next_fit]
  rw [if_neg hn, heap_bootstrap_inited s hinit]
  have hh2 : ({ s with strategy := 2 } : St).alist_head = some h0 := hh
  rw [hh2]
  simp only []
  rcases hrv with h1 | ⟨h1, h2⟩
  · have h1' : ({ s with strategy := 2 } : St).rover = some start := h1
    rw [h1']
  · have h1' : ({ s with strategy := 2 } : St).rover = none := h1
    rw [h1']
    simp only []
    rw [h2]

/-- When every free block is too small, the circular next-fit scan walks
the whole cycle from `start` and returns null without touching the state. -/
theorem nfLoop_all_small (s1 : St) (L A B : List Nat) (n start : Nat)
    (hch : chainA s1.mem s1.alist_head FUEL = some L)
    (hsort : L.Pairwise (fun a b => a < b))
    (hL : L = A ++ start :: B)
    (hall : ∀ x ∈ L, (getB s1.mem x).sz < n) :
    nfLoop s1 n start start FUEL = (s1, none) := by
  have hlen : L.length ≤ FUEL := chainA_length s1.mem L _ FUEL hch
  have hLlen : L.length = A.length + B.length + 1 := by
    rw [hL]; simp [List.length_append]; omega
  have hchS : chainA s1.mem (some start) (B.length + 1) = some (start :: B) := by
    rw [hL] at hch
    exact chainA_suffix s1.mem A _ FUEL start B hch
  rw [hL] at hsort
  rw [List.pairwise_append] at hsort
  obtain ⟨hpA, hpSB, hpX⟩ := hsort
  have hstartB : ∀ b ∈ B, start < b := (List.pairwise_cons.mp hpSB).1
  have hAstart : ∀ a ∈ A, a < start := fun a ha => hpX a ha start (by simp)
  have hhead : s1.alist_head = (A ++ start :: B).head? := by
    rw [← hL]
    exact chainA_head s1.mem _ FUEL L hch
  obtain ⟨g1, hg1, hg1A⟩ : ∃ g1, FUEL = (start :: B).length + g1 ∧ A.length ≤ g1 := by
    refine ⟨FUEL - (B.length + 1), by simp only [List.length_cons]; omega,
      by omega⟩
  rw [hg1]
  rw [nfLoop_skip s1 n start B start [] (B.length + 1) g1
    (by rw [List.append_nil]; exact hchS)
    (fun x hx => hall x (by rw [hL]; exact List.mem_append_right A hx))
    (fun hx => lt_irrefl start (hstartB start hx))]
  simp only []
  cases A with
  | nil =>
    rw [show s1.alist_head = some start from hhead]
    simp only []
    rw [if_pos trivial]
  | cons a0 A' =>
    rw [show s1.alist_head = some a0 from hhead]
    simp only []
    rw [if_neg (by intro he; exact absurd (hAstart a0 (by simp)) (by omega))]
    obtain ⟨g2, hg2⟩ : ∃ g2, g1 = (a0 :: A').length + g2 := by
      refine ⟨g1 - (A'.length + 1), by simp at hg1A ⊢; omega⟩
    rw [hg2]
    have hch0 : chainA s1.mem (some a0) FUEL = some (a0 :: (A' ++ (start :: B))) := by
      rw [← show s1.alist_head = some a0 from hhead]
      rw [hL] at hch
      exact hch
    rw [nfLoop_skip s1 n start A' a0 (start :: B) FUEL g2 hch0
      (fun x hx => hall x (by
        rw [hL]
        rcases List.mem_cons.mp hx with h | h
        · simp [h]
        · exact List.mem_cons_of_mem _ (List.mem_append_left _ h)))
      (fun hx => lt_irrefl start (hAstart start (by simp [hx])))]
    simp only []
    rw [if_pos trivial]


/-- The next-fit circular scan from `start` skips the too-small rotated
prefix `r1` and allocates the first sufficiently large block `c`. -/
theorem nfLoop_finds_cyclic (s1 : St) (L A B r1 r2 P1 P2 : List Nat) (n start c : Nat)
    (hch : chainA s1.mem s1.alist_head FUEL = some L)
    (hprev : aprevOkB s1.mem none L = true)
    (hsort : L.Pairwise (fun a b => a < b))
    (hL : L = A ++ start :: B)
    (hrot : start :: (B ++ A) = r1 ++ c :: r2)
    (hsmall : ∀ x ∈ r1, (getB s1.mem x).sz < n)
    (hbig : n ≤ (getB s1.mem c).sz)
    (hLc : L = P1 ++ c :: P2) :
    (nfLoop s1 n start start FUEL).2 = some (c + HDRSZ) ∧
    (nfLoop s1 n start start FUEL).1.rover =
      (if HDRSZ + n + HDRSZ + MIN_TAIL ≤ HDRSZ + (getB s1.mem c).sz
       then some (c + (HDRSZ + n))
       else (P2 ++ P1).head?) := by
  have hlen : L.length ≤ FUEL := chainA_length s1.mem L _ FUEL hch
  have hLlen : L.length = A.length + B.length + 1 := by
    rw [hL]; simp [List.length_append]; omega
  have hchS : chainA s1.mem (some start) (B.length + 1) = some (start :: B) := by
    have hch2 := hch
    rw [hL] at hch2
    exact chainA_suffix s1.mem A _ FUEL start B hch2
  have hsort2 := hsort
  rw [hL, List.pairwise_append] at hsort2
  obtain ⟨hpA, hpSB, hpX⟩ := hsort2
  have hstartB : ∀ b ∈ B, start < b := (List.pairwise_cons.mp hpSB).1
  have hAstart : ∀ a ∈ A, a < start := fun a ha => hpX a ha start (by simp)
  have hhead : s1.alist_head = (A ++ start :: B).head? := by
    rw [← hL]
    exact chainA_head s1.mem _ FUEL L hch
  cases r1 with
  | nil =>
    rw [List.nil_append] at hrot
    injection hrot with hc hr2
    subst hc
    rw [show FUEL = 4095 + 1 from rfl]
    exact nfLoop_hit_result s1 L P1 P2 n start start 4095 hch hprev hLc hbig
  | cons s0 r1' =>
    rw [List.cons_append] at hrot
    injection hrot with hs0 hBA
    subst hs0
    rcases List.append_eq_append_iff.mp hBA with ⟨A1, hr1', hA⟩ | ⟨c', hB, hc'⟩
    · -- the hit block lies in `A`, past the wrap-around
      have hcA : c ∈ A := by rw [hA]; exact List.mem_append_right A1 (by simp)
      have hcs : ¬ c = start := by
        intro he; exact absurd (hAstart c hcA) (by omega)
      obtain ⟨g1, hg1, hg1A⟩ : ∃ g1, FUEL = (start :: B).length + g1 ∧ A.length ≤ g1 := by
        refine ⟨FUEL - (B.length + 1), by simp only [List.length_cons]; omega, by omega⟩
      rw [hg1]
      rw [nfLoop_skip s1 n start B start [] (B.length + 1) g1
        (by rw [List.append_nil]; exact hchS)
        (fun x hx => by
          rcases List.mem_cons.mp hx with h | h
          · exact hsmall x (by simp [h])
          · exact hsmall x (by
              rw [hr1']
              exact List.mem_cons_of_mem _ (List.mem_append_left _ h)))
        (fun hx => lt_irrefl start (hstartB start hx))]
      simp only []
      cases A1 with
      | nil =>
        have hheadc : s1.alist_head = some c := by rw [hhead, hA]; rfl
        rw [hheadc]
        simp only []
        rw [if_neg hcs]
        have hAl : A.length = r2.length + 1 := by rw [hA]; simp
        obtain ⟨g1', hg1'⟩ : ∃ g1', g1 = g1' + 1 := ⟨g1 - 1, by omega⟩
        rw [hg1']
        exact nfLoop_hit_result s1 L P1 P2 n start c g1' hch hprev hLc hbig
      | cons a0 A1' =>
        have hheada : s1.alist_head = some a0 := by rw [hhead, hA]; rfl
        rw [hheada]
        simp only []
        rw [if_neg (by
          intro he
          exact absurd (hAstart a0 (by rw [hA]; simp)) (by omega))]
        have hAl : A.length = A1'.length + 1 + (r2.length + 1) := by
          rw [hA]
          simp only [List.length_append, List.length_cons]
        obtain ⟨g2', hg2'⟩ : ∃ g2', g1 = (a0 :: A1').length + (g2' + 1) := by
          refine ⟨g1 - A1'.length - 2, by simp only [List.length_cons]; omega⟩
        rw [hg2']
        have hLre : L = a0 :: (A1' ++ (c :: (r2 ++ start :: B))) := by
          rw [hL, hA]
          simp
        have hch0 : chainA s1.mem (some a0) FUEL =
            some (a0 :: (A1' ++ (c :: (r2 ++ start :: B)))) := by
          rw [← hheada, ← hLre]
          exact hch
        rw [nfLoop_skip s1 n start A1' a0 (c :: (r2 ++ start :: B)) FUEL (g2' + 1) hch0
          (fun x hx => by
            rcases List.mem_cons.mp hx with h | h
            · exact hsmall x (by rw [hr1']; simp [h])
            · exact hsmall x (by
                rw [hr1']
                exact List.mem_cons_of_mem _
                  (List.mem_append_right _ (List.mem_cons_of_mem _ h))))
          (fun hx => lt_irrefl start
            (hAstart start (by rw [hA]; exact List.mem_append_left _ (by simp [hx]))))]
        simp only []
        rw [if_neg hcs]
        exact nfLoop_hit_result s1 L P1 P2 n start c g2' hch hprev hLc hbig
    · cases c' with
      | nil =>
        -- the list head itself is the hit block (`A = c :: r2`)
        rw [List.append_nil] at hB
        rw [List.nil_append] at hc'
        have hA : A = c :: r2 := hc'.symm
        have hcs : ¬ c = start := by
          intro he
          exact absurd (hAstart c (by rw [hA]; simp)) (by omega)
        obtain ⟨g1, hg1, hg1A⟩ : ∃ g1, FUEL = (start :: B).length + g1 ∧ A.length ≤ g1 := by
          refine ⟨FUEL - (B.length + 1), by simp only [List.length_cons]; omega, by omega⟩
        rw [hg1]
        rw [nfLoop_skip s1 n start B start [] (B.length + 1) g1
          (by rw [List.append_nil]; exact hchS)
          (fun x hx => hsmall x (by rw [← hB]; exact hx))
          (fun hx => lt_irrefl start (hstartB start hx))]
        simp only []
        have hheadc : s1.alist_head = some c := by rw [hhead, hA]; rfl
        rw [hheadc]
        simp only []
        rw [if_neg hcs]
        have hAl : A.length = r2.length + 1 := by rw [hA]; simp
        obtain ⟨g1', hg1'⟩ : ∃ g1', g1 = g1' + 1 := ⟨g1 - 1, by omega⟩
        rw [hg1']
        exact nfLoop_hit_result s1 L P1 P2 n start c g1' hch hprev hLc hbig
      | cons e c'' =>
        -- the hit block lies in `B`, before the wrap-around
        rw [List.cons_append] at hc'
        injection hc' with hce hr2
        subst hce
        have hcB : c ∈ B := by rw [hB]; exact List.mem_append_right _ (by simp)
        have hcs : ¬ c = start := by
          intro he
          exact absurd (hstartB c hcB) (by omega)
        rw [hB] at hchS
        have hBl : B.length = r1'.length + 1 + c''.length := by
          rw [hB]
          simp only [List.length_append, List.length_cons]
          omega
        obtain ⟨g', hg'⟩ : ∃ g', FUEL = (start :: r1').length + (g' + 1) := by
          refine ⟨FUEL - r1'.length - 2, by simp only [List.length_cons]; omega⟩
        rw [hg']
        rw [nfLoop_skip s1 n start r1' start (c :: c'') (B.length + 1) (g' + 1)
          (by rw [hB]; exact hchS)
          hsmall
          (fun hx => lt_irrefl start (hstartB start (by rw [hB]; exact List.mem_append_left _ hx)))]
        simp only []
        rw [if_neg hcs]
        exact nfLoop_hit_result s1 L P1 P2 n start c g' hch hprev hLc hbig


/-- C5: for n > 0, malloc_next_fit traverses the address list circularly
from the rover (or the head when the rover is null): and with the list
empty it returns null and forces the rover to null; when every block on
the cycle is smaller than n it returns null leaving the rover on the
starting block; and it allocates the first block c of size at least n met
on the cycle, returning c + Hsz and setting the rover to the carved
remainder when the split happens and to c's successor (wrapping to the
head, null when the list empties) otherwise. In the scenario
next-fit(64); next-fit(64); free the first; next-fit(64), the third call
returns 392, continuing from the rover rather than reusing the just-freed
head block 0, which stays free. -/
theorem C5_next_fit_cyclic_spec :
    (∀ (s : St) (K : List Nat) (n : Nat), 0 < n → MainWF s [] K →
      (malloc_next_fit s n).2 = none ∧ (malloc_next_fit s n).1.rover = none) ∧
    (∀ (s : St) (L K : List Nat) (n start : Nat) (A B : List Nat), 0 < n →
      MainWF s L K →
      (s.rover = some start ∨ (s.rover = none ∧ L.head? = some start)) →
      L = A ++ start :: B →
      (∀ x ∈ L, (getB s.mem x).sz < n) →
      (malloc_next_fit s n).2 = none ∧ (malloc_next_fit s n).1.rover = some start) ∧
    (∀ (s : St) (L K : List Nat) (n start c : Nat) (A B r1 r2 P1 P2 : List Nat),
      0 < n →
      MainWF s L K →
      (s.rover = some start ∨ (s.rover = none ∧ L.head? = some start)) →
      L = A ++ start :: B →
      start :: (B ++ A) = r1 ++ c :: r2 →
      (∀ x ∈ r1, (getB s.mem x).sz < n) →
      n ≤ (getB s.mem c).sz →
      L = P1 ++ c :: P2 →
      (malloc_next_fit s n).2 = some (c + HDRSZ) ∧
      (malloc_next_fit s n).1.rover =
        (if HDRSZ + n + HDRSZ + MIN_TAIL ≤ HDRSZ + (getB s.mem c).sz
         then some (c + (HDRSZ + n))
         else (P2 ++ P1).head?)) ∧
    ((malloc_next_fit (heap_bootstrap st0) 64).2 = some 88 ∧
     (malloc_next_fit (malloc_next_fit (heap_bootstrap st0) 64).1 64).2 = some 240 ∧
     (let s3 := my_free (malloc_next_fit (malloc_next_fit (heap_bootstrap st0) 64).1 64).1
                  (malloc_next_fit (heap_bootstrap st0) 64).2
      magicAt (my_free (malloc_next_fit (malloc_next_fit (heap_bootstrap st0) 64).1 64).1
                  (malloc_next_fit (heap_bootstrap st0) 64).2).mem 0 = MAGIC_F ∧
      (malloc_next_fit s3 64).2 = some 392 ∧
      (malloc_next_fit s3 64).1.rover = some 456 ∧
      magicAt (malloc_next_fit s3 64).1.mem 0 = MAGIC_F ∧
      chainA (malloc_next_fit s3 64).1.mem (malloc_next_fit s3 64).1.alist_head FUEL =
        some [0, 456])) := by
  refine ⟨?_, ?_, ?_, ?_⟩
  · intro s K n hn hwf
    obtain ⟨hinit, hch, _⟩ := hwf
    have hh : s.alist_head = none := chainA_head s.mem _ FUEL [] hch
    simp only [malloc_next_fit]
    rw [if_neg (by omega), heap_bootstrap_inited s hinit]
    have hh2 : ({ s with strategy := 2 } : St).alist_head = none := hh
    rw [hh2]
    exact ⟨rfl, rfl⟩
  · intro s L K n start A B hn hwf hrv hL hall
    obtain ⟨hinit, hch, hsort, hprev, _⟩ := hwf
    have hhead : s.alist_head = L.head? := chainA_head s.mem _ FUEL L hch
    obtain ⟨h0, hh0⟩ : ∃ h0, L.head? = some h0 := by
      rw [hL]; cases A <;> exact ⟨_, rfl⟩
    have hred := malloc_next_fit_red s n h0 start (by omega) hinit
      (by rw [hhead, hh0])
      (by rcases hrv with h | ⟨h1, h2⟩
          · exact Or.inl h
          · exact Or.inr ⟨h1, by rw [h2] at hh0; exact Option.some.inj hh0⟩)
    rw [hred]
    rw [nfLoop_all_small { s with strategy := 2, rover := some start } L A B n start
      hch hsort hL hall]
    exact ⟨rfl, rfl⟩
  · intro s L K n start c A B r1 r2 P1 P2 hn hwf hrv hL hrot hsmall hbig hLc
    obtain ⟨hinit, hch, hsort, hprev, _⟩ := hwf
    have hhead : s.alist_head = L.head? := chainA_head s.mem _ FUEL L hch
    obtain ⟨h0, hh0⟩ : ∃ h0, L.head? = some h0 := by
      rw [hL]; cases A <;> exact ⟨_, rfl⟩
    have hred := malloc_next_fit_red s n h0 start (by omega) hinit
      (by rw [hhead, hh0])
      (by rcases hrv with h | ⟨h1, h2⟩
          · exact Or.inl h
          · exact Or.inr ⟨h1, by rw [h2] at hh0; exact Option.some.inj hh0⟩)
    rw [hred]
    exact nfLoop_finds_cyclic { s with strategy := 2, rover := some start }
      L A B r1 r2 P1 P2 n start c hch hprev hsort hL hrot hsmall hbig hLc
  · refine ⟨by decide, by decide, by decide, by decide, by decide, by decide⟩

/-- Witness: on the freshly bootstrapped arena (single free block at 0 of
payload 4008, rover on it), next-fit(64) succeeds at block 0, returns
payload 88 and moves the rover to the carved remainder at 152. -/
theorem C5_next_fit_cyclic_spec_witness :
    ((0 : Nat) < 64 ∧ MainWF (heap_bootstrap st0) [0] [0] ∧
     (heap_bootstrap st0).rover = some 0 ∧
     ([0] : List Nat) = [] ++ 0 :: [] ∧
     (0 : Nat) :: (([] : List Nat) ++ []) = [] ++ 0 :: [] ∧
     64 ≤ (getB (heap_bootstrap st0).mem 0).sz) ∧
    (malloc_next_fit (heap_bootstrap st0) 64).2 = some (0 + HDRSZ) ∧
    (malloc_next_fit (heap_bootstrap st0) 64).1.rover =
      (if HDRSZ + 64 + HDRSZ + MIN_TAIL ≤ HDRSZ + (getB (heap_bootstrap st0).mem 0).sz
       then some (0 + (HDRSZ + 64))
       else ((([] : List Nat) ++ []).head?)) :=
  ⟨⟨by decide, by unfold MainWF; decide, by decide, rfl, rfl, by decide⟩,
   C5_next_fit_cyclic_spec.2.2.1 (heap_bootstrap st0) [0] [0] 64 0 0 [] [] [] [] [] []
     (by decide) (by unfold MainWF; decide) (Or.inl (by decide)) rfl rfl
     (by intro x hx; cases hx) (by decide) rfl⟩

end Alloc
